import Mathlib

/-!
Verification of the `deckcodec` Go library: a bit-level packed binary
writer/reader (`internal/bitio.go`), a deck encoder/decoder over a sorted
card dictionary (`encode.go`), pack loading (`pack.go`) and the Bloom-filter
helper `MayContainAll` (`helpers.go`).

The Go code is shallowly embedded: byte slices become `List Nat` (each
element < 256), unsigned machine integers become `Nat` with explicit
`% 2^w` at the places where the Go code performs a narrowing conversion
(`uint32(i)`, `uint16(fid)`), and fallible functions return `Option` /
`Except`.
-/

namespace bitio

/-- Byte-for-bit model of `bitio.Writer` (internal/bitio.go):
`Buf` is the output byte buffer, `acc` the bit accumulator, `nbits` the
number of bits currently in the accumulator. -/
structure Writer where
  buf : List Nat
  acc : Nat
  nbits : Nat
deriving Repr, DecidableEq

/-- A zero-valued `bitio.Writer` (`var bw bitio.Writer`). -/
def Writer.empty : Writer := ⟨[], 0, 0⟩

/-- The flush loop of `Writer.WriteBits`: while at least 8 bits are in the
accumulator, append the low byte (`byte(w.acc & 0xff)`) to the buffer and
shift the accumulator right by 8. -/
def flushLoop (buf : List Nat) (acc nbits : Nat) : List Nat × Nat × Nat :=
  if 8 ≤ nbits then flushLoop (buf ++ [acc &&& 0xff]) (acc >>> 8) (nbits - 8)
  else (buf, acc, nbits)
termination_by nbits

/-- `Writer.WriteBits(v, width)`: or the low `width` bits of `v` into the
accumulator at position `nbits`, bump `nbits`, then flush whole bytes. -/
def Writer.writeBits (w : Writer) (v width : Nat) : Writer :=
  let acc := w.acc ||| ((v &&& ((1 <<< width) - 1)) <<< w.nbits)
  let nbits := w.nbits + width
  let r := flushLoop w.buf acc nbits
  ⟨r.1, r.2.1, r.2.2⟩

/-- `Writer.Finish`: flush the remaining partial byte (zero-padded in the
unused high positions) and return the byte buffer. -/
def Writer.finish (w : Writer) : List Nat :=
  if 0 < w.nbits then w.buf ++ [w.acc &&& 0xff] else w.buf

/-- Little-endian value of a byte list: byte `i` contributes with weight
`256^i`.  This is the abstraction used to reason about the bit stream. -/
def bytesVal : List Nat → Nat
  | [] => 0
  | b :: rest => b + 256 * bytesVal rest

/-- Sequential writes: fold `writeBits` over a list of (value, width)
pairs.  `Encode`'s write sequence is bridged to this form. -/
def writeAll (ps : List (Nat × Nat)) (w : Writer) : Writer :=
  ps.foldl (fun w p => w.writeBits p.1 p.2) w

/-- Model of `bitio.Reader`: source bytes, bit accumulator, bit count in
the accumulator, current byte index, and remaining logically valid bits. -/
structure Reader where
  src : List Nat
  acc : Nat
  nbits : Nat
  cur : Nat
  rem : Nat
deriving Repr, DecidableEq

/-- `bitio.NewReader(src, validBits)`: if `validBits < 0` all bits of
`src` are considered valid. -/
def NewReader (src : List Nat) (validBits : Int) : Reader :=
  if validBits < 0 then ⟨src, 0, 0, 0, 8 * src.length⟩
  else ⟨src, 0, 0, 0, validBits.toNat⟩

/-- The byte-loading loop of `Reader.ReadBits`: while fewer than `width`
bits are in the accumulator, load the next source byte at bit position
`nbits` (or fail if the source is exhausted). -/
def fill (r : Reader) (width : Nat) : Option Reader :=
  if r.nbits < width then
    if r.src.length ≤ r.cur then none
    else fill ⟨r.src, r.acc ||| ((r.src.getD r.cur 0) <<< r.nbits),
               r.nbits + 8, r.cur + 1, r.rem⟩ width
  else some r
termination_by width - r.nbits

/-- `Reader.ReadBits(width)`: fail with `ErrShort` (modelled as `none`)
when fewer than `width` valid bits remain, otherwise load bytes as needed
and return the low `width` bits of the accumulator, narrowed to `uint32`
(the Go code returns `uint32(r.acc & mask)`; widths are nonnegative ints
at every call site, so `width : Nat`). -/
def Reader.readBits (r : Reader) (width : Nat) : Option (Nat × Reader) :=
  if r.rem < width then none
  else match fill r width with
    | none => none
    | some r' =>
      let mask := (1 <<< width) - 1
      some ((r'.acc &&& mask) % 2 ^ 32,
            ⟨r'.src, r'.acc >>> width, r'.nbits - width, r'.cur, r'.rem - width⟩)

/-- Writer invariant: the accumulator holds fewer than `nbits` bits and
the buffer holds bytes. -/
def winv (w : Writer) : Prop := w.acc < 2 ^ w.nbits ∧ ∀ b ∈ w.buf, b < 256

/-- Total number of bits written so far. -/
def wlen (w : Writer) : Nat := 8 * w.buf.length + w.nbits

/-- Value of the whole bit stream written so far (buffer then
accumulator, LSB first). -/
def wval (w : Writer) : Nat := bytesVal w.buf + w.acc * 2 ^ (8 * w.buf.length)

/-- Total bit count of a (value, width) write sequence. -/
def totalBits (ps : List (Nat × Nat)) : Nat := (ps.map Prod.snd).sum

/-- `agrees S pos ps`: starting at bit offset `pos` of the stream with
little-endian value `S`, the stream holds the pairs of `ps` in order,
each value masked to its width. -/
def agrees (S : Nat) : Nat → List (Nat × Nat) → Prop
  | _, [] => True
  | pos, p :: rest => S / 2 ^ pos % 2 ^ p.2 = p.1 % 2 ^ p.2 ∧ agrees S (pos + p.2) rest

/-- Reader invariant tying the machine state to the abstract stream: the
source has little-endian value `S` and the read cursor is at bit offset
`pos`; the accumulator holds exactly the next `nbits` bits. -/
def RinvCore (r : Reader) (S pos : Nat) : Prop :=
  bytesVal r.src = S ∧ (∀ b ∈ r.src, b < 256) ∧
  pos + r.nbits = 8 * r.cur ∧ r.cur ≤ r.src.length ∧
  r.acc = S / 2 ^ pos % 2 ^ r.nbits

/-- Physical consistency of a reader: the declared remaining valid bits
never exceed the bits physically available (remaining bytes plus the
accumulator). -/
def physOK (r : Reader) : Prop :=
  r.cur ≤ r.src.length ∧ r.rem + 8 * r.cur ≤ 8 * r.src.length + r.nbits

/-- Reading a list of widths in sequence, collecting the values. -/
def readValues (r : Reader) : List Nat → Option (List Nat)
  | [] => some []
  | wd :: ws =>
    match r.readBits wd with
    | none => none
    | some (v, r') => (readValues r' ws).map (v :: ·)

end bitio

namespace deckcodec

open bitio

/-- `Pack` (pack.go): a 16-bit format identifier and the card identifier
list.  `FormatID : uint16` and `Cards : []uint64` are modelled as `Nat`
with range hypotheses where theorems need them. -/
structure Pack where
  formatID : Nat
  cards : List Nat
deriving Repr, DecidableEq

/-- `DeckInput` (encode.go).  The Go `Deck` field is a `map[uint64]uint8`;
it is modelled as an association list standing for one iteration order of
the map (key uniqueness is a map invariant, carried as a hypothesis). -/
structure DeckInput where
  leader : List Nat
  tactics : List Nat
  deck : List (Nat × Nat)
deriving Repr, DecidableEq

/-- `DeckOutput` (encode.go), with the decoded `Deck` map modelled as an
association list built by map-style insertion. -/
structure DeckOutput where
  formatID : Nat
  leader : List Nat
  tactics : List Nat
  deck : List (Nat × Nat)
deriving Repr, DecidableEq

/-- The error values of encode.go, pack decoding and bitio, one
constructor per distinct Go error. -/
inductive Err where
  | packFormatIDZero
  | emptyPack
  | pkNotInPack
  | countOutOfRange
  | leaderTooLong
  | tacticsTooLong
  | deckTooLong
  | base64Malformed
  | shortRead
  | formatIDMismatch
  | ordinalOOB
deriving Repr, DecidableEq

/-- The loop of `idBits`: `b := 0; for (1 << b) < m { b++ }`. -/
def idBitsLoop (m : Int) (b : Nat) : Nat :=
  if (2 : Int) ^ b < m then idBitsLoop m (b + 1) else b
termination_by m.toNat - b
decreasing_by
  have h1 : (b : Int) + 1 ≤ 2 ^ b := by
    exact_mod_cast Nat.succ_le_of_lt (Nat.lt_two_pow b)
  omega

/-- `idBits(m)` (encode.go): minimum number of bits required to represent
`m` distinct values; `1` for `m ≤ 1`. -/
def idBits (m : Int) : Nat :=
  if m ≤ 1 then 1 else idBitsLoop m 0

/-- The loop of Go's `sort.Search(n, f)`: binary search for the boundary,
`h := (i+j)/2`, narrowing `[i,j)` until empty. -/
def searchLoop (f : Nat → Bool) (i j : Nat) : Nat :=
  if i < j then
    if ¬ f ((i + j) / 2) then searchLoop f ((i + j) / 2 + 1) j
    else searchLoop f i ((i + j) / 2)
  else i
termination_by j - i
decreasing_by all_goals omega

/-- Go's `sort.Search(n, f)`. -/
def sortSearch (n : Nat) (f : Nat → Bool) : Nat := searchLoop f 0 n

/-- `ordinalOf(cards, pk)` (encode.go): binary search for `pk`; returns
`uint32(i)` (hence the `% 2^32`) and whether `cards[i] == pk`. -/
def ordinalOf (cards : List Nat) (pk : Nat) : Nat × Bool :=
  let i := sortSearch cards.length (fun k => pk ≤ cards.getD k 0)
  (i % 2 ^ 32, decide (i < cards.length ∧ cards.getD i 0 = pk))

/-- Ascending sort of a list of naturals (`slices.Sort`). -/
def sortNat (l : List Nat) : List Nat := l.mergeSort (fun a b => decide (a ≤ b))

/-- The per-element body of `Encode`'s `toOrd` helper before sorting: map
each pk to its ordinal, failing with the unknown-identifier error if any
pk is absent. -/
def toOrdLoop (cards : List Nat) : List Nat → Except Err (List Nat)
  | [] => .ok []
  | pk :: rest =>
    let r := ordinalOf cards pk
    if r.2 then do
      let out ← toOrdLoop cards rest
      .ok (r.1 :: out)
    else .error .pkNotInPack

/-- `Encode`'s `toOrd` helper: ordinals of the pks, sorted ascending. -/
def toOrd (cards : List Nat) (pks : List Nat) : Except Err (List Nat) := do
  let os ← toOrdLoop cards pks
  .ok (sortNat os)

/-- The main-deck loop of `Encode`: validate each count is in `[1,4]`,
map each pk to its ordinal, collecting `(ordinal, count)` pairs in
iteration order. -/
def toPairsLoop (cards : List Nat) : List (Nat × Nat) → Except Err (List (Nat × Nat))
  | [] => .ok []
  | (pk, c) :: rest =>
    if c < 1 ∨ 4 < c then .error .countOutOfRange
    else
      let r := ordinalOf cards pk
      if r.2 then do
        let out ← toPairsLoop cards rest
        .ok ((r.1, c) :: out)
      else .error .pkNotInPack

/-- `sort.Slice(P, func(i, j) { return P[i].o < P[j].o })`: sort the
(ordinal, count) pairs by ordinal. -/
def sortPairs (ps : List (Nat × Nat)) : List (Nat × Nat) :=
  ps.mergeSort (fun a b => decide (a.1 ≤ b.1))

/-- Character for a 6-bit group in the URL-safe base64 alphabet
`A-Z a-z 0-9 - _` (Go's `base64.RawURLEncoding`, RFC 4648 §5,
no padding). -/
def b64Char (n : Nat) : Char :=
  Char.ofNat
    (if n < 26 then 65 + n
     else if n < 52 then 97 + (n - 26)
     else if n < 62 then 48 + (n - 52)
     else if n = 62 then 45
     else 95)

/-- Index of a character in the URL-safe base64 alphabet, `none` for
characters outside it. -/
def b64Index (c : Char) : Option Nat :=
  let k := c.toNat
  if 65 ≤ k ∧ k ≤ 90 then some (k - 65)
  else if 97 ≤ k ∧ k ≤ 122 then some (26 + (k - 97))
  else if 48 ≤ k ∧ k ≤ 57 then some (52 + (k - 48))
  else if k = 45 then some 62
  else if k = 95 then some 63
  else none

/-- `base64.RawURLEncoding.EncodeToString`: big-endian 6-bit groups over
3-byte blocks, final block of 1 or 2 bytes shortened to 2 or 3 characters,
no padding. -/
def b64EncodeBytes : List Nat → List Char
  | [] => []
  | [b0] => [b64Char (b0 >>> 2), b64Char ((b0 &&& 3) <<< 4)]
  | [b0, b1] => [b64Char (b0 >>> 2), b64Char (((b0 &&& 3) <<< 4) ||| (b1 >>> 4)),
                 b64Char ((b1 &&& 15) <<< 2)]
  | b0 :: b1 :: b2 :: rest =>
    b64Char (b0 >>> 2) :: b64Char (((b0 &&& 3) <<< 4) ||| (b1 >>> 4)) ::
    b64Char (((b1 &&& 15) <<< 2) ||| (b2 >>> 6)) :: b64Char (b2 &&& 63) ::
    b64EncodeBytes rest

/-- `base64.RawURLEncoding.DecodeString`: inverse of `b64EncodeBytes`;
`none` on an invalid character or a final block of length 1 (Go's
`CorruptInputError`).  Like Go's non-strict decoder, trailing bits of a
final partial block are ignored. -/
def b64DecodeChars : List Char → Option (List Nat)
  | [] => some []
  | [_] => none
  | [c0, c1] => do
    let s0 ← b64Index c0
    let s1 ← b64Index c1
    some [(s0 <<< 2) ||| (s1 >>> 4)]
  | [c0, c1, c2] => do
    let s0 ← b64Index c0
    let s1 ← b64Index c1
    let s2 ← b64Index c2
    some [(s0 <<< 2) ||| (s1 >>> 4), ((s1 &&& 15) <<< 4) ||| (s2 >>> 2)]
  | c0 :: c1 :: c2 :: c3 :: rest => do
    let s0 ← b64Index c0
    let s1 ← b64Index c1
    let s2 ← b64Index c2
    let s3 ← b64Index c3
    let tail ← b64DecodeChars rest
    some (((s0 <<< 2) ||| (s1 >>> 4)) :: (((s1 &&& 15) <<< 4) ||| (s2 >>> 2)) ::
          (((s2 &&& 3) <<< 6) ||| s3) :: tail)

/-- `Encode(p, in)` (encode.go): validate, map to sorted ordinals, pack
the bit stream `[16-bit fid][8-bit count + ordinals]×2[8-bit count +
(ordinal, 2-bit count-1) pairs]`, base64url-encode.  Statement order,
including the order of validation checks, mirrors the source. -/
def Encode (p : Pack) (inp : DeckInput) : Except Err (List Char) := do
  if p.formatID = 0 then throw .packFormatIDZero
  if p.cards = [] then throw .emptyPack
  let ib := idBits (p.cards.length : Int)
  let L ← toOrd p.cards inp.leader
  let T ← toOrd p.cards inp.tactics
  let P0 ← toPairsLoop p.cards inp.deck
  let P := sortPairs P0
  let w : Writer := Writer.empty
  let w := w.writeBits p.formatID 16
  if 255 < L.length then throw .leaderTooLong
  let w := w.writeBits L.length 8
  let w := L.foldl (fun w o => w.writeBits o ib) w
  if 255 < T.length then throw .tacticsTooLong
  let w := w.writeBits T.length 8
  let w := T.foldl (fun w o => w.writeBits o ib) w
  if 255 < P.length then throw .deckTooLong
  let w := w.writeBits P.length 8
  let w := P.foldl (fun w pr => (w.writeBits pr.1 ib).writeBits (pr.2 - 1) 2) w
  let raw := w.finish
  return b64EncodeBytes raw

/-- `toPK` inside `Decode`: bounds-checked indexing of the card list. -/
def toPK (cards : List Nat) (o : Nat) : Except Err Nat :=
  if cards.length ≤ o then .error .ordinalOOB
  else .ok (cards.getD o 0)

/-- Lift a bitio read (whose failure is `ErrShort`) into `Decode`'s error
monad; `Decode` propagates the short-read error verbatim. -/
def rb (r : Reader) (width : Nat) : Except Err (Nat × Reader) :=
  match r.readBits width with
  | none => .error .shortRead
  | some x => .ok x

/-- The leader/tactics section read loop of `Decode`: `n` ordinals of
`ib` bits each, each translated back to a pk. -/
def readPKs (cards : List Nat) (ib : Nat) : Nat → Reader → Except Err (List Nat × Reader)
  | 0, r => .ok ([], r)
  | n + 1, r => do
    let (o, r) ← rb r ib
    let pk ← toPK cards o
    let (rest, r) ← readPKs cards ib n r
    .ok (pk :: rest, r)

/-- The main-deck section read loop of `Decode`: `n` pairs of an `ib`-bit
ordinal and a 2-bit count-minus-one, reconstituting `count = value + 1`. -/
def readDeckPairs (cards : List Nat) (ib : Nat) :
    Nat → Reader → Except Err (List (Nat × Nat) × Reader)
  | 0, r => .ok ([], r)
  | n + 1, r => do
    let (o, r) ← rb r ib
    let (cm1, r) ← rb r 2
    let pk ← toPK cards o
    let (rest, r) ← readDeckPairs cards ib n r
    .ok ((pk, cm1 + 1) :: rest, r)

/-- Go map assignment `D[pk] = c` on the association-list model:
replace the binding if the key is present, else append. -/
def mapUpsert (m : List (Nat × Nat)) (k v : Nat) : List (Nat × Nat) :=
  if m.any (fun kv => kv.1 = k) then
    m.map (fun kv => if kv.1 = k then (k, v) else kv)
  else m ++ [(k, v)]

/-- Build the decoded `Deck` map from the pairs in stream order. -/
def buildDeckMap (ps : List (Nat × Nat)) : List (Nat × Nat) :=
  ps.foldl (fun m pr => mapUpsert m pr.1 pr.2) []

/-- `Decode(p, code)` (encode.go): base64-decode, check the 16-bit format
identifier (`uint16(fid) != p.FormatID`), read the three sections, return
the reconstructed deck. -/
def Decode (p : Pack) (code : List Char) : Except Err DeckOutput := do
  let raw ← match b64DecodeChars code with
            | none => throw Err.base64Malformed
            | some r => pure r
  let ib := idBits (p.cards.length : Int)
  let r := NewReader raw (8 * (raw.length : Int))
  let (fid, r) ← rb r 16
  if fid % 2 ^ 16 ≠ p.formatID then throw .formatIDMismatch
  let (nL, r) ← rb r 8
  let (L, r) ← readPKs p.cards ib nL r
  let (nT, r) ← rb r 8
  let (T, r) ← readPKs p.cards ib nT r
  let (nD, r) ← rb r 8
  let (D, _) ← readDeckPairs p.cards ib nD r
  return { formatID := p.formatID, leader := L, tactics := T, deck := buildDeckMap D }

/-- `MayContainAll(b, pks)` (helpers.go): loop over pks, returning false
at the first pk for which a present filter's `MayContain` is false.
`BloomMeta.MayContain` is not part of the verified sources, so a present
filter is modelled by its membership predicate. -/
def MayContainAll (b : Option (Nat → Bool)) : List Nat → Bool
  | [] => true
  | pk :: rest =>
    match b with
    | some f => if f pk then MayContainAll (some f) rest else false
    | none => MayContainAll none rest

/-- The post-parse normalization of `LoadPack` (pack.go): after JSON
unmarshalling (file I/O is outside the model), `slices.Sort(pack.Cards)`
sorts the card list ascending before the pack is returned. -/
def loadPackSortCards (p : Pack) : Pack :=
  { p with cards := sortNat p.cards }

/-- The widths of the main-deck section: an `ib`-bit ordinal and a 2-bit
count-minus-one per pair. -/
def pairWts (ib : Nat) : List (Nat × Nat) → List (Nat × Nat)
  | [] => []
  | pr :: rest => (pr.1, ib) :: (pr.2 - 1, 2) :: pairWts ib rest

/-- The flat (value, width) sequence written by a successful `Encode`. -/
def encPairs (fid ib : Nat) (L T : List Nat) (P : List (Nat × Nat)) : List (Nat × Nat) :=
  (fid, 16) :: (L.length, 8) :: (L.map (fun o => (o, ib)) ++
  ((T.length, 8) :: (T.map (fun o => (o, ib)) ++
  ((P.length, 8) :: pairWts ib P))))

end deckcodec

namespace bitio

theorem lor_add_pow (n : Nat) : ∀ a b : Nat, a < 2 ^ n → a ||| b * 2 ^ n = a + b * 2 ^ n := by
  induction n with
  | zero =>
    intro a b h
    interval_cases a
    simp
  | succ n ih =>
    intro a b h
    have ha : a = Nat.bit (Nat.bodd a) (Nat.div2 a) := (Nat.bit_decomp a).symm
    have hb : b * 2 ^ (n + 1) = Nat.bit false (b * 2 ^ n) := by
      simp [Nat.bit]
      ring
    rw [ha, hb, Nat.lor_bit]
    have hd : Nat.div2 a < 2 ^ n := by
      have := Nat.bit_decomp a
      have h2 : Nat.div2 a = a / 2 := Nat.div2_val a
      omega
    rw [ih _ b hd]
    simp [Nat.bit]
    cases hob : Nat.bodd a <;> simp <;> omega

theorem bytesVal_cons (x : Nat) (l : List Nat) :
    bytesVal (x :: l) = x + 256 * bytesVal l := rfl

theorem pow8succ (n : Nat) : 2 ^ (8 * (n + 1)) = 2 ^ (8 * n) * 256 := by
  rw [Nat.mul_add, pow_add]
  norm_num

theorem bytesVal_append (xs : List Nat) (b : Nat) :
    bytesVal (xs ++ [b]) = bytesVal xs + b * 2 ^ (8 * xs.length) := by
  induction xs with
  | nil => simp [bytesVal]
  | cons x xs ih =>
    rw [List.cons_append, bytesVal_cons, ih, bytesVal_cons, List.length_cons, pow8succ]
    ring

theorem bytesVal_lt (l : List Nat) (h : ∀ b ∈ l, b < 256) :
    bytesVal l < 2 ^ (8 * l.length) := by
  induction l with
  | nil => simp [bytesVal]
  | cons x xs ih =>
    have hx : x < 256 := h x (by simp)
    have hxs := ih (fun b hb => h b (by simp [hb]))
    rw [bytesVal_cons, List.length_cons, pow8succ]
    omega

theorem bytesVal_getD (l : List Nat) (i : Nat) (h : ∀ b ∈ l, b < 256)
    (hi : i < l.length) : bytesVal l / 2 ^ (8 * i) % 256 = l.getD i 0 := by
  induction l generalizing i with
  | nil => simp at hi
  | cons x xs ih =>
    cases i with
    | zero =>
      have hx : x < 256 := h x (by simp)
      simp [bytesVal_cons, Nat.add_mul_mod_self_left, Nat.mod_eq_of_lt hx]
    | succ i =>
      have hstep : bytesVal (x :: xs) / 2 ^ (8 * (i + 1)) = bytesVal xs / 2 ^ (8 * i) := by
        have h2 : 2 ^ (8 * (i + 1)) = 256 * 2 ^ (8 * i) := by
          rw [pow8succ]
          ring
        rw [h2]
        rw [Nat.mul_comm 256 (2 ^ (8 * i)), ← Nat.div_div_eq_div_mul]
        have hx : x < 256 := h x (by simp)
        have hd : bytesVal (x :: xs) / 256 = bytesVal xs := by
          rw [bytesVal_cons]
          omega
        rw [← hd]
        rw [Nat.div_div_eq_div_mul, Nat.mul_comm]
        rw [← Nat.div_div_eq_div_mul]
      rw [hstep]
      simp only [List.getD_cons_succ]
      exact ih i (fun b hb => h b (by simp [hb])) (by simpa using hi)

theorem and_255 (acc : Nat) : acc &&& 0xff = acc % 256 := by
  have := Nat.and_pow_two_sub_one_eq_mod acc 8
  norm_num at this
  exact this

theorem shr_8 (acc : Nat) : acc >>> 8 = acc / 256 := by
  have := Nat.shiftRight_eq_div_pow acc 8
  norm_num at this
  exact this

theorem flushLoop_spec (buf : List Nat) (acc nbits : Nat) :
    (flushLoop buf acc nbits).2.2 < 8 ∧
    8 * (flushLoop buf acc nbits).1.length + (flushLoop buf acc nbits).2.2
      = 8 * buf.length + nbits ∧
    bytesVal (flushLoop buf acc nbits).1
      + (flushLoop buf acc nbits).2.1 * 2 ^ (8 * (flushLoop buf acc nbits).1.length)
      = bytesVal buf + acc * 2 ^ (8 * buf.length) ∧
    (acc < 2 ^ nbits → (flushLoop buf acc nbits).2.1 < 2 ^ (flushLoop buf acc nbits).2.2) ∧
    ((∀ b ∈ buf, b < 256) → ∀ b ∈ (flushLoop buf acc nbits).1, b < 256) := by
  induction buf, acc, nbits using flushLoop.induct with
  | case1 buf acc nbits h ih =>
    rw [flushLoop, if_pos h]
    obtain ⟨i1, i2, i3, i4, i5⟩ := ih
    refine ⟨i1, ?_, ?_, ?_, ?_⟩
    · rw [i2]
      simp only [List.length_append, List.length_singleton]
      omega
    · rw [i3, bytesVal_append, and_255, shr_8, List.length_append,
          List.length_singleton, pow8succ]
      have key : (acc % 256 + 256 * (acc / 256)) * 2 ^ (8 * buf.length)
          = acc * 2 ^ (8 * buf.length) := by
        rw [Nat.mod_add_div acc 256]
      ring_nf at key ⊢
      linarith [key]
    · intro hacc
      apply i4
      rw [shr_8]
      have h2 : 2 ^ nbits = 2 ^ (nbits - 8) * 256 := by
        have he : nbits = (nbits - 8) + 8 := by omega
        rw [he]
        rw [pow_add]
        norm_num
      rw [h2] at hacc
      exact Nat.div_lt_of_lt_mul (by omega)
    · intro hb
      apply i5
      intro b hmem
      rcases List.mem_append.mp hmem with h1 | h1
      · exact hb b h1
      · simp only [List.mem_singleton] at h1
        subst h1
        rw [and_255]
        omega
  | case2 buf acc nbits h =>
    rw [flushLoop, if_neg h]
    refine ⟨?_, rfl, rfl, fun h2 => h2, fun h2 => h2⟩
    show nbits < 8
    omega

theorem writeBits_spec (w : Writer) (v width : Nat) (h : winv w) :
    winv (w.writeBits v width) ∧
    (w.writeBits v width).nbits < 8 ∧
    wlen (w.writeBits v width) = wlen w + width ∧
    wval (w.writeBits v width) = wval w + (v % 2 ^ width) * 2 ^ (wlen w) := by
  have hmask : v &&& ((1 <<< width) - 1) = v % 2 ^ width := by
    rw [Nat.shiftLeft_eq, one_mul, Nat.and_pow_two_sub_one_eq_mod]
  have hshift : (v % 2 ^ width) <<< w.nbits = (v % 2 ^ width) * 2 ^ w.nbits :=
    Nat.shiftLeft_eq _ _
  have hlor : w.acc ||| ((v &&& ((1 <<< width) - 1)) <<< w.nbits)
      = w.acc + (v % 2 ^ width) * 2 ^ w.nbits := by
    rw [hmask, hshift]
    exact lor_add_pow w.nbits w.acc (v % 2 ^ width) h.1
  have hm : v % 2 ^ width < 2 ^ width := Nat.mod_lt _ (pow_pos (by omega) _)
  have hlt : w.acc + (v % 2 ^ width) * 2 ^ w.nbits < 2 ^ (w.nbits + width) := by
    have h1 : 1 + v % 2 ^ width ≤ 2 ^ width := by omega
    calc w.acc + (v % 2 ^ width) * 2 ^ w.nbits
        < 2 ^ w.nbits + (v % 2 ^ width) * 2 ^ w.nbits := by
          have := h.1
          omega
      _ = (1 + v % 2 ^ width) * 2 ^ w.nbits := by ring
      _ ≤ 2 ^ width * 2 ^ w.nbits := Nat.mul_le_mul_right _ h1
      _ = 2 ^ (w.nbits + width) := by rw [← pow_add, Nat.add_comm]
  have hfl := flushLoop_spec w.buf
    (w.acc + v % 2 ^ width * 2 ^ w.nbits) (w.nbits + width)
  obtain ⟨f1, f2, f3, f4, f5⟩ := hfl
  have hwb : w.writeBits v width =
      ⟨(flushLoop w.buf (w.acc + v % 2 ^ width * 2 ^ w.nbits) (w.nbits + width)).1,
       (flushLoop w.buf (w.acc + v % 2 ^ width * 2 ^ w.nbits) (w.nbits + width)).2.1,
       (flushLoop w.buf (w.acc + v % 2 ^ width * 2 ^ w.nbits) (w.nbits + width)).2.2⟩ := by
    simp only [Writer.writeBits]
    rw [hlor]
  rw [hwb]
  refine ⟨⟨f4 hlt, f5 h.2⟩, f1, ?_, ?_⟩
  · simp only [wlen]
    omega
  · simp only [wval, wlen]
    rw [f3, pow_add]
    ring

theorem wval_lt (w : Writer) (h : winv w) : wval w < 2 ^ wlen w := by
  have h1 := bytesVal_lt w.buf h.2
  have h2 := h.1
  rw [wval, wlen, pow_add]
  have h3 : 2 ^ (8 * w.buf.length) ≥ 1 := Nat.one_le_two_pow
  nlinarith

theorem writeAll_nil (w : Writer) : writeAll [] w = w := rfl

theorem writeAll_cons (p : Nat × Nat) (ps : List (Nat × Nat)) (w : Writer) :
    writeAll (p :: ps) w = writeAll ps (w.writeBits p.1 p.2) := rfl

theorem writeAll_append (ps qs : List (Nat × Nat)) (w : Writer) :
    writeAll (ps ++ qs) w = writeAll qs (writeAll ps w) := by
  simp [writeAll, List.foldl_append]

theorem writeAll_winv (ps : List (Nat × Nat)) (w : Writer) (h : winv w) :
    winv (writeAll ps w) ∧ wlen (writeAll ps w) = wlen w + totalBits ps := by
  induction ps generalizing w with
  | nil => simpa [writeAll_nil, totalBits] using h
  | cons p ps ih =>
    obtain ⟨s1, _, s3, _⟩ := writeBits_spec w p.1 p.2 h
    obtain ⟨i1, i2⟩ := ih (w.writeBits p.1 p.2) s1
    rw [writeAll_cons]
    refine ⟨i1, ?_⟩
    rw [i2, s3, totalBits, totalBits]
    simp
    omega

theorem writeAll_nbits (ps : List (Nat × Nat)) (w : Writer) (h : winv w)
    (hn : w.nbits < 8) : (writeAll ps w).nbits < 8 := by
  induction ps generalizing w with
  | nil => simpa [writeAll_nil] using hn
  | cons p ps ih =>
    obtain ⟨s1, s2, _, _⟩ := writeBits_spec w p.1 p.2 h
    rw [writeAll_cons]
    exact ih _ s1 s2

theorem writeAll_highBits (ps : List (Nat × Nat)) (w : Writer) (h : winv w) :
    ∃ k, wval (writeAll ps w) = wval w + k * 2 ^ (wlen w) := by
  induction ps generalizing w with
  | nil => exact ⟨0, by simp [writeAll_nil]⟩
  | cons p ps ih =>
    obtain ⟨s1, _, s3, s4⟩ := writeBits_spec w p.1 p.2 h
    obtain ⟨k, hk⟩ := ih (w.writeBits p.1 p.2) s1
    refine ⟨p.1 % 2 ^ p.2 + k * 2 ^ p.2, ?_⟩
    rw [writeAll_cons, hk, s4, s3, pow_add]
    ring

theorem div_pow_extract (u m k pos wd : Nat) (hu : u < 2 ^ pos) (hm : m < 2 ^ wd) :
    (u + m * 2 ^ pos + k * 2 ^ (pos + wd)) / 2 ^ pos % 2 ^ wd = m := by
  have h1 : u + m * 2 ^ pos + k * 2 ^ (pos + wd)
      = u + (m + k * 2 ^ wd) * 2 ^ pos := by
    rw [pow_add]
    ring
  rw [h1, Nat.add_mul_div_right _ _ (pow_pos (by omega) pos),
      Nat.div_eq_of_lt hu, Nat.zero_add, Nat.add_mul_mod_self_right,
      Nat.mod_eq_of_lt hm]

theorem writeAll_agrees (ps : List (Nat × Nat)) (w : Writer) (h : winv w) :
    agrees (wval (writeAll ps w)) (wlen w) ps := by
  induction ps generalizing w with
  | nil => trivial
  | cons p ps ih =>
    obtain ⟨s1, _, s3, s4⟩ := writeBits_spec w p.1 p.2 h
    rw [writeAll_cons]
    constructor
    · obtain ⟨k, hk⟩ := writeAll_highBits ps (w.writeBits p.1 p.2) s1
      rw [hk, s4, s3]
      have hm : p.1 % 2 ^ p.2 < 2 ^ p.2 := Nat.mod_lt _ (pow_pos (by omega) _)
      rw [div_pow_extract (wval w) (p.1 % 2 ^ p.2) k (wlen w) p.2 (wval_lt w h) hm]
    · have := ih (w.writeBits p.1 p.2) s1
      rwa [s3] at this

theorem finish_spec (w : Writer) (h : winv w) (hn : w.nbits < 8) :
    bytesVal w.finish = wval w ∧ (∀ b ∈ w.finish, b < 256) ∧
    w.finish.length = (wlen w + 7) / 8 ∧ wlen w ≤ 8 * w.finish.length := by
  rw [Writer.finish]
  by_cases hp : 0 < w.nbits
  · rw [if_pos hp]
    have hacc : w.acc < 256 := by
      have := h.1
      have h2 : (2 : Nat) ^ w.nbits ≤ 2 ^ 8 := Nat.pow_le_pow_right (by omega) (by omega)
      norm_num at h2
      omega
    refine ⟨?_, ?_, ?_, ?_⟩
    · rw [bytesVal_append, and_255, Nat.mod_eq_of_lt hacc, wval]
    · intro b hb
      rcases List.mem_append.mp hb with h1 | h1
      · exact h.2 b h1
      · simp only [List.mem_singleton] at h1
        subst h1
        rw [and_255]
        omega
    · rw [List.length_append, List.length_singleton, wlen]
      omega
    · rw [List.length_append, List.length_singleton, wlen]
      omega
  · rw [if_neg hp]
    have hz : w.nbits = 0 := by omega
    have hacc : w.acc = 0 := by
      have := h.1
      rw [hz] at this
      omega
    refine ⟨?_, h.2, ?_, ?_⟩
    · rw [wval, hacc]
      omega
    · rw [wlen, hz]
      omega
    · rw [wlen, hz]
      omega

theorem winv_empty : winv Writer.empty := ⟨by norm_num [Writer.empty], by simp [Writer.empty]⟩

/-- The byte stream produced by a write sequence from a fresh writer:
all bytes, length `ceil(totalBits/8)`, and the stream agrees with the
written pairs from offset 0. -/
theorem stream_spec (ps : List (Nat × Nat)) :
    (∀ b ∈ (writeAll ps Writer.empty).finish, b < 256) ∧
    (writeAll ps Writer.empty).finish.length = (totalBits ps + 7) / 8 ∧
    totalBits ps ≤ 8 * (writeAll ps Writer.empty).finish.length ∧
    agrees (bytesVal (writeAll ps Writer.empty).finish) 0 ps := by
  have h0 := winv_empty
  obtain ⟨hw, hl⟩ := writeAll_winv ps Writer.empty h0
  have hn := writeAll_nbits ps Writer.empty h0 (by simp [Writer.empty])
  obtain ⟨f1, f2, f3, f4⟩ := finish_spec _ hw hn
  have hlen0 : wlen Writer.empty = 0 := by simp [wlen, Writer.empty]
  have hag := writeAll_agrees ps Writer.empty h0
  rw [hlen0] at hag
  rw [hl, hlen0] at f3 f4
  rw [f1]
  exact ⟨f2, by rw [f3]; omega, by omega, hag⟩

theorem mod_pow_split (x a b : Nat) :
    x % 2 ^ (a + b) = x % 2 ^ a + (x / 2 ^ a % 2 ^ b) * 2 ^ a := by
  rw [pow_add, Nat.mod_mul]
  ring

theorem mod_pow_div (x a b : Nat) (h : a ≤ b) :
    x % 2 ^ b / 2 ^ a = x / 2 ^ a % 2 ^ (b - a) := by
  have hb : 2 ^ b = 2 ^ a * 2 ^ (b - a) := by
    rw [← pow_add]
    congr 1
    omega
  rw [hb, Nat.mod_mul_right_div_self]

theorem fill_spec (r : Reader) (width : Nat) (S pos : Nat) :
    RinvCore r S pos → pos + width ≤ 8 * r.src.length →
    ∃ r', fill r width = some r' ∧ RinvCore r' S pos ∧ width ≤ r'.nbits ∧
      r'.rem = r.rem ∧ r'.src = r.src := by
  induction r, width using fill.induct with
  | case1 r width hlt hcur =>
    -- exhausted source: contradicts the physical-bit budget
    intro h hphys
    obtain ⟨h1, h2, h3, h4, h5⟩ := h
    exfalso
    omega
  | case2 r width hlt hcur ih =>
    intro h hphys
    obtain ⟨h1, h2, h3, h4, h5⟩ := h
    simp only [not_le] at hcur
    have hbyte : r.src.getD r.cur 0 = S / 2 ^ (8 * r.cur) % 256 := by
      rw [← h1, bytesVal_getD r.src r.cur h2 hcur]
    have haccb : r.acc < 2 ^ r.nbits := by
      rw [h5]
      exact Nat.mod_lt _ (pow_pos (by omega) _)
    have hlor : r.acc ||| ((r.src.getD r.cur 0) <<< r.nbits)
        = r.acc + (r.src.getD r.cur 0) * 2 ^ r.nbits := by
      rw [Nat.shiftLeft_eq]
      exact lor_add_pow r.nbits r.acc _ haccb
    have hacc' : r.acc + (r.src.getD r.cur 0) * 2 ^ r.nbits
        = S / 2 ^ pos % 2 ^ (r.nbits + 8) := by
      rw [mod_pow_split (S / 2 ^ pos) r.nbits 8, h5, hbyte,
          Nat.div_div_eq_div_mul, ← pow_add, h3]
      norm_num
    obtain ⟨r', hr', hinv, hnb, hrem, hsrc⟩ := ih
      ⟨h1, h2, by dsimp only; omega, by dsimp only; omega, by dsimp only; rw [hlor, hacc']⟩
      (by simpa using hphys)
    refine ⟨r', ?_, hinv, hnb, hrem, by simpa using hsrc⟩
    rw [fill, if_pos hlt, if_neg (by omega)]
    exact hr'
  | case3 r width hge =>
    intro h hphys
    exact ⟨r, by rw [fill, if_neg hge], h, by omega, rfl, rfl⟩

theorem readBits_spec (r : Reader) (width : Nat) (S pos : Nat)
    (h : RinvCore r S pos) (hw : width ≤ r.rem)
    (hphys : pos + r.rem ≤ 8 * r.src.length) :
    ∃ r', r.readBits width = some (S / 2 ^ pos % 2 ^ width % 2 ^ 32, r') ∧
      RinvCore r' S (pos + width) ∧ r'.rem = r.rem - width ∧ r'.src = r.src := by
  obtain ⟨r₁, hfill, hinv₁, hnb₁, hrem₁, hsrc₁⟩ :=
    fill_spec r width S pos h (by omega)
  obtain ⟨h1, h2, h3, h4, h5⟩ := hinv₁
  have hmask : r₁.acc &&& ((1 <<< width) - 1) = S / 2 ^ pos % 2 ^ width := by
    rw [Nat.shiftLeft_eq, one_mul, Nat.and_pow_two_sub_one_eq_mod, h5,
        Nat.mod_mod_of_dvd _ (pow_dvd_pow 2 hnb₁)]
  have hacc' : r₁.acc >>> width = S / 2 ^ (pos + width) % 2 ^ (r₁.nbits - width) := by
    rw [Nat.shiftRight_eq_div_pow, h5, mod_pow_div _ _ _ hnb₁,
        Nat.div_div_eq_div_mul, ← pow_add]
  refine ⟨⟨r₁.src, r₁.acc >>> width, r₁.nbits - width, r₁.cur, r₁.rem - width⟩, ?_, ?_, ?_, ?_⟩
  · rw [Reader.readBits, if_neg (by omega), hfill]
    dsimp only
    rw [hmask]
  · exact ⟨h1, h2, by dsimp only; omega, h4, hacc'⟩
  · dsimp only
    omega
  · exact hsrc₁

theorem fill_some_of_phys (r : Reader) (width : Nat) :
    r.cur ≤ r.src.length → width + 8 * r.cur ≤ 8 * r.src.length + r.nbits →
    ∃ r' k, fill r width = some r' ∧ r'.src = r.src ∧ r'.rem = r.rem ∧
      r'.cur = r.cur + k ∧ r'.nbits = r.nbits + 8 * k ∧
      width ≤ r'.nbits ∧ r'.cur ≤ r'.src.length := by
  induction r, width using fill.induct with
  | case1 r width hlt hcur =>
    intro hc hp
    exfalso
    omega
  | case2 r width hlt hcur ih =>
    intro hc hp
    simp only [not_le] at hcur
    obtain ⟨r', k, hr', hsrc, hrem, hcur', hnb, hwid, hcl'⟩ :=
      ih (by simp; omega) (by simp; omega)
    refine ⟨r', k + 1, ?_, by simpa using hsrc, by simpa using hrem,
      by simp at hcur'; omega, by simp at hnb; omega, hwid, hcl'⟩
    rw [fill, if_pos hlt, if_neg (by omega)]
    exact hr'
  | case3 r width hge =>
    intro hc hp
    exact ⟨r, 0, by rw [fill, if_neg hge], rfl, rfl, by omega, by omega, by omega, hc⟩

theorem fill_none_of_phys (r : Reader) (width : Nat) :
    r.cur ≤ r.src.length → 8 * r.src.length + r.nbits < width + 8 * r.cur →
    fill r width = none := by
  induction r, width using fill.induct with
  | case1 r width hlt hcur =>
    intro hc hp
    rw [fill, if_pos hlt, if_pos hcur]
  | case2 r width hlt hcur ih =>
    intro hc hp
    rw [fill, if_pos hlt, if_neg hcur]
    exact ih (by simp; omega) (by simp; omega)
  | case3 r width hge =>
    intro hc hp
    simp only [not_lt] at hge
    omega

/-- `ReadBits` under a physically consistent budget fails exactly when
fewer than `width` valid bits remain. -/
theorem readBits_none_iff (r : Reader) (width : Nat) (h : physOK r) :
    r.readBits width = none ↔ r.rem < width := by
  constructor
  · intro hnone
    by_contra hge
    simp only [not_lt] at hge
    obtain ⟨r', k, hfill, _, _, _, _, _, _⟩ :=
      fill_some_of_phys r width h.1 (by have := h.2; omega)
    rw [Reader.readBits, if_neg (by omega), hfill] at hnone
    simp at hnone
  · intro hlt
    rw [Reader.readBits, if_pos hlt]

/-- Successful reads preserve physical consistency and consume exactly
`width` valid bits. -/
theorem readBits_physOK (r : Reader) (width : Nat) (h : physOK r)
    (v : Nat) (r' : Reader) (hs : r.readBits width = some (v, r')) :
    physOK r' ∧ r'.rem = r.rem - width ∧ r'.src = r.src := by
  rw [Reader.readBits] at hs
  by_cases hlt : r.rem < width
  · rw [if_pos hlt] at hs
    simp at hs
  rw [if_neg hlt] at hs
  simp only [not_lt] at hlt
  obtain ⟨r₁, k, hfill, hsrc, hrem, hcur, hnb, hwid, hcl⟩ :=
    fill_some_of_phys r width h.1 (by have := h.2; omega)
  rw [hfill] at hs
  dsimp only at hs
  simp only [Option.some.injEq, Prod.mk.injEq] at hs
  obtain ⟨_, hr'⟩ := hs
  subst hr'
  refine ⟨⟨by simpa [hsrc] using hcl, ?_⟩, by simp [hrem], by simpa using hsrc⟩
  dsimp only
  rw [hsrc, hrem, hcur, hnb]
  have := h.2
  omega

theorem totalBits_cons (p : Nat × Nat) (ps : List (Nat × Nat)) :
    totalBits (p :: ps) = p.2 + totalBits ps := by
  simp [totalBits]

theorem totalBits_append (xs ys : List (Nat × Nat)) :
    totalBits (xs ++ ys) = totalBits xs + totalBits ys := by
  simp [totalBits]

theorem agrees_append (S : Nat) :
    ∀ (xs ys : List (Nat × Nat)) (pos : Nat), agrees S pos (xs ++ ys) →
    agrees S pos xs ∧ agrees S (pos + totalBits xs) ys
  | [], ys, pos, h => ⟨trivial, by simpa [totalBits] using h⟩
  | x :: xs, ys, pos, h => by
    obtain ⟨h1, h2⟩ := h
    obtain ⟨h3, h4⟩ := agrees_append S xs ys (pos + x.2) h2
    refine ⟨⟨h1, h3⟩, ?_⟩
    rw [totalBits_cons]
    have : pos + (x.2 + totalBits xs) = pos + x.2 + totalBits xs := by ring
    rw [this]
    exact h4

theorem readValues_spec (S : Nat) :
    ∀ (qs : List (Nat × Nat)) (r : Reader) (pos : Nat),
    RinvCore r S pos → agrees S pos qs → (∀ pr ∈ qs, pr.2 ≤ 32) →
    totalBits qs ≤ r.rem → pos + r.rem ≤ 8 * r.src.length →
    readValues r (qs.map Prod.snd) = some (qs.map (fun pr => pr.1 % 2 ^ pr.2))
  | [], r, pos, _, _, _, _, _ => rfl
  | q :: qs, r, pos, hinv, hag, hw, hrem, hphys => by
    obtain ⟨hagq, hagqs⟩ := hag
    have hms : totalBits (q :: qs) = q.2 + totalBits qs := totalBits_cons q qs
    obtain ⟨r₁, hread, hinv₁, hrem₁, hsrc₁⟩ :=
      readBits_spec r q.2 S pos hinv (by omega) hphys
    have hq32 : q.2 ≤ 32 := hw q (by simp)
    have hv : S / 2 ^ pos % 2 ^ q.2 % 2 ^ 32 = q.1 % 2 ^ q.2 := by
      rw [hagq, Nat.mod_eq_of_lt]
      calc q.1 % 2 ^ q.2 < 2 ^ q.2 := Nat.mod_lt _ (pow_pos (by omega) _)
        _ ≤ 2 ^ 32 := Nat.pow_le_pow_right (by omega) hq32
    rw [hv] at hread
    have hrec := readValues_spec S qs r₁ (pos + q.2) hinv₁ hagqs
      (fun x hx => hw x (by simp [hx]))
      (by omega) (by rw [hrem₁, hsrc₁]; omega)
    rw [List.map_cons, readValues, hread]
    dsimp only
    rw [hrec]
    rfl

end bitio

namespace deckcodec

open bitio

theorem b64Index_b64Char : ∀ n < 64, b64Index (b64Char n) = some n := by decide

theorem lor_small (a b k : Nat) (h : b < 2 ^ k) : (a * 2 ^ k) ||| b = b + a * 2 ^ k := by
  rw [Nat.lor_comm]
  exact lor_add_pow k b a h

theorem shr_arith (x k : Nat) : x >>> k = x / 2 ^ k := Nat.shiftRight_eq_div_pow x k

theorem shl_arith (x k : Nat) : x <<< k = x * 2 ^ k := Nat.shiftLeft_eq x k

theorem and_mask (x k : Nat) : x &&& (2 ^ k - 1) = x % 2 ^ k :=
  Nat.and_pow_two_sub_one_eq_mod x k

theorem and3 (x : Nat) : x &&& 3 = x % 4 := by
  have := and_mask x 2
  norm_num at this
  exact this

theorem and15 (x : Nat) : x &&& 15 = x % 16 := by
  have := and_mask x 4
  norm_num at this
  exact this

theorem and63 (x : Nat) : x &&& 63 = x % 64 := by
  have := and_mask x 6
  norm_num at this
  exact this

theorem shr2 (x : Nat) : x >>> 2 = x / 4 := by
  have := shr_arith x 2
  norm_num at this
  exact this

theorem shr4 (x : Nat) : x >>> 4 = x / 16 := by
  have := shr_arith x 4
  norm_num at this
  exact this

theorem shr6 (x : Nat) : x >>> 6 = x / 64 := by
  have := shr_arith x 6
  norm_num at this
  exact this

theorem shl2 (x : Nat) : x <<< 2 = x * 4 := by
  have := shl_arith x 2
  norm_num at this
  exact this

theorem shl4 (x : Nat) : x <<< 4 = x * 16 := by
  have := shl_arith x 4
  norm_num at this
  exact this

theorem shl6 (x : Nat) : x <<< 6 = x * 64 := by
  have := shl_arith x 6
  norm_num at this
  exact this

theorem lor16 (a b : Nat) (h : b < 16) : (a * 16) ||| b = b + a * 16 := by
  have := lor_small a b 4 (by norm_num; omega)
  norm_num at this
  exact this

theorem lor4 (a b : Nat) (h : b < 4) : (a * 4) ||| b = b + a * 4 := by
  have := lor_small a b 2 (by norm_num; omega)
  norm_num at this
  exact this

theorem lor64 (a b : Nat) (h : b < 64) : (a * 64) ||| b = b + a * 64 := by
  have := lor_small a b 6 (by norm_num; omega)
  norm_num at this
  exact this

/-- Round-trip of the base64url codec on byte lists. -/
theorem b64_roundtrip (bs : List Nat) (h : ∀ b ∈ bs, b < 256) :
    b64DecodeChars (b64EncodeBytes bs) = some bs := by
  induction bs using b64EncodeBytes.induct with
  | case1 => rfl
  | case2 b0 =>
    have h0 : b0 < 256 := h b0 (by simp)
    rw [b64EncodeBytes]
    rw [shr2, and3, shl4]
    rw [b64DecodeChars]
    rw [b64Index_b64Char _ (by omega), b64Index_b64Char _ (by omega)]
    simp only [Option.bind_eq_bind, Option.some_bind, Option.some.injEq, List.cons.injEq, and_true]
    rw [shl2, shr4, lor4 _ _ (by omega)]
    omega
  | case3 b0 b1 =>
    have h0 : b0 < 256 := h b0 (by simp)
    have h1 : b1 < 256 := h b1 (by simp)
    rw [b64EncodeBytes]
    rw [shr2, and3, shl4, shr4, and15, shl2]
    rw [lor16 _ _ (by omega)]
    rw [b64DecodeChars]
    rw [b64Index_b64Char _ (by omega), b64Index_b64Char _ (by omega),
        b64Index_b64Char _ (by omega)]
    simp only [Option.bind_eq_bind, Option.some_bind, Option.some.injEq, List.cons.injEq, and_true]
    rw [shl2, shr4, and15, shl4, shr2]
    rw [lor4 _ _ (by omega), lor16 _ _ (by omega)]
    omega
  | case4 b0 b1 b2 rest ih =>
    have h0 : b0 < 256 := h b0 (by simp)
    have h1 : b1 < 256 := h b1 (by simp)
    have h2 : b2 < 256 := h b2 (by simp)
    have hrest : ∀ b ∈ rest, b < 256 := fun b hb => h b (by simp [hb])
    rw [b64EncodeBytes]
    rw [shr2, and3, shl4, shr4, and15, shl2, shr6, and63]
    rw [lor16 _ _ (by omega), lor4 _ _ (by omega)]
    rw [b64DecodeChars]
    rw [b64Index_b64Char _ (by omega), b64Index_b64Char _ (by omega),
        b64Index_b64Char _ (by omega), b64Index_b64Char _ (by omega)]
    simp only [Option.bind_eq_bind, Option.some_bind]
    rw [ih hrest]
    simp only [Option.bind_eq_bind, Option.some_bind, Option.some.injEq, List.cons.injEq, and_true]
    rw [shl2, shr4, and15, shl4, shr2, and3, shl6]
    rw [lor4 _ _ (by omega), lor16 _ _ (by omega), lor64 _ _ (by omega)]
    omega

theorem idBitsLoop_spec (m : Int) (b : Nat) :
    (∀ b' < b, (2 : Int) ^ b' < m) →
    m ≤ 2 ^ idBitsLoop m b ∧ ∀ b' < idBitsLoop m b, (2 : Int) ^ b' < m := by
  induction b using idBitsLoop.induct (m := m) with
  | case1 b hlt ih =>
    intro hinv
    rw [idBitsLoop, if_pos hlt]
    exact ih (fun b' hb' => by
      rcases Nat.lt_succ_iff_lt_or_eq.mp hb' with h | h
      · exact hinv b' h
      · subst h
        exact hlt)
  | case2 b hge =>
    intro hinv
    rw [idBitsLoop, if_neg hge]
    exact ⟨by omega, hinv⟩

theorem idBits_spec (m : Int) :
    (m ≤ 1 → idBits m = 1) ∧
    (1 < m → m ≤ 2 ^ idBits m ∧ ∀ b : Nat, m ≤ 2 ^ b → idBits m ≤ b) := by
  constructor
  · intro h
    rw [idBits, if_pos h]
  · intro h
    rw [idBits, if_neg (by omega)]
    obtain ⟨h1, h2⟩ := idBitsLoop_spec m 0 (by omega)
    refine ⟨h1, fun b hb => ?_⟩
    by_contra hgt
    have := h2 b (by omega)
    omega

/-- `m ≤ 2^(idBits m)` for positive list sizes (cast to `Nat`). -/
theorem idBits_ge (m : Nat) (h : 1 ≤ m) : m ≤ 2 ^ idBits (m : Int) := by
  by_cases h1 : (m : Int) ≤ 1
  · have hm : m = 1 := by omega
    rw [(idBits_spec (m : Int)).1 h1]
    omega
  · have h2 := ((idBits_spec (m : Int)).2 (by omega)).1
    exact_mod_cast h2

theorem idBits_le (m k : Nat) (hk : 1 ≤ k) (h : m ≤ 2 ^ k) : idBits (m : Int) ≤ k := by
  by_cases h1 : (m : Int) ≤ 1
  · rw [(idBits_spec (m : Int)).1 h1]
    omega
  · apply ((idBits_spec (m : Int)).2 (by omega)).2
    exact_mod_cast h

theorem searchLoop_spec (f : Nat → Bool) (n : Nat)
    (hmono : ∀ k k', k ≤ k' → k' < n → f k = true → f k' = true) :
    ∀ i j, i ≤ j → j ≤ n → (∀ k < i, f k = false) →
    (∀ k, j ≤ k → k < n → f k = true) →
    i ≤ searchLoop f i j ∧ searchLoop f i j ≤ j ∧
    (∀ k < searchLoop f i j, f k = false) ∧
    (∀ k, searchLoop f i j ≤ k → k < n → f k = true) := by
  intro i j
  induction i, j using searchLoop.induct (f := f) with
  | case1 i j hij hf ih =>
    intro _ hjn hlow hhigh
    rw [searchLoop, if_pos hij, if_pos hf]
    obtain ⟨r1, r2, r3, r4⟩ := ih (by omega) hjn
      (fun k hk => by
        by_cases hki : k < i
        · exact hlow k hki
        · by_contra hft
          have hkh : k ≤ (i + j) / 2 := by omega
          have hmo := hmono k ((i + j) / 2) hkh (by omega) (by
            cases hfk : f k
            · exact absurd hfk hft
            · rfl)
          exact hf hmo)
      hhigh
    exact ⟨by omega, r2, r3, r4⟩
  | case2 i j hij hf ih =>
    intro _ hjn hlow hhigh
    rw [searchLoop, if_pos hij, if_neg hf]
    simp only [not_not] at hf
    obtain ⟨r1, r2, r3, r4⟩ := ih (by omega) (by omega) hlow
      (fun k hk hkn => by
        rcases Nat.eq_or_lt_of_le hk with hke | hkl
        · rw [← hke]
          exact hf
        · exact hmono ((i + j) / 2) k (by omega) hkn hf)
    exact ⟨r1, by omega, r3, fun k hk hkn => by
      by_cases hkj : (i + j) / 2 ≤ k
      · rcases Nat.eq_or_lt_of_le hkj with hke | hkl
        · rw [← hke]
          exact hf
        · exact hmono ((i + j) / 2) k (by omega) hkn hf
      · exact r4 k hk hkn⟩
  | case3 i j hij =>
    intro hle hjn hlow hhigh
    rw [searchLoop, if_neg hij]
    have heq : i = j := by omega
    subst heq
    exact ⟨le_refl _, le_refl _, hlow, hhigh⟩

theorem sorted_getD_mono (cards : List Nat) (hs : cards.Sorted (· ≤ ·))
    (k k' : Nat) (hk : k ≤ k') (hk' : k' < cards.length) :
    cards.getD k 0 ≤ cards.getD k' 0 := by
  rcases Nat.eq_or_lt_of_le hk with he | hlt
  · subst he
    exact le_refl _
  · rw [List.getD_eq_get cards 0 (by omega), List.getD_eq_get cards 0 hk']
    exact List.pairwise_iff_get.mp hs ⟨k, by omega⟩ ⟨k', hk'⟩ hlt

theorem mem_getD (cards : List Nat) (i : Nat) (h : i < cards.length) :
    cards.getD i 0 ∈ cards := by
  rw [List.getD_eq_get cards 0 h]
  exact List.get_mem cards i h

/-- On a `≤`-sorted card list, `ordinalOf` finds every member: it returns
the (truncated) index of an occurrence together with `found = true`. -/
theorem ordinalOf_found (cards : List Nat) (hs : cards.Sorted (· ≤ ·))
    (pk : Nat) (hmem : pk ∈ cards) :
    ∃ i, i < cards.length ∧ cards.getD i 0 = pk ∧
      ordinalOf cards pk = (i % 2 ^ 32, true) := by
  have hmono : ∀ k k', k ≤ k' → k' < cards.length →
      (decide (pk ≤ cards.getD k 0)) = true → (decide (pk ≤ cards.getD k' 0)) = true := by
    intro k k' hk hk' hd
    have := of_decide_eq_true hd
    exact decide_eq_true (le_trans this (sorted_getD_mono cards hs k k' hk hk'))
  obtain ⟨r1, r2, r3, r4⟩ := searchLoop_spec _ cards.length hmono 0 cards.length
    (by omega) (le_refl _) (by omega) (by omega)
  obtain ⟨i₀, hi₀⟩ := List.get_of_mem hmem
  set r := searchLoop (fun k => decide (pk ≤ cards.getD k 0)) 0 cards.length with hr
  have hgd : cards.getD i₀ 0 = pk := by
    rw [List.getD_eq_get cards 0 i₀.isLt, hi₀]
  have hri : r ≤ (i₀ : Nat) := by
    by_contra hgt
    have := r3 i₀ (by omega)
    rw [hgd] at this
    simp at this
  have hrn : r < cards.length := by
    have := i₀.isLt
    omega
  have hple : pk ≤ cards.getD r 0 := of_decide_eq_true (r4 r (le_refl _) hrn)
  have hger : cards.getD r 0 ≤ pk := by
    rw [← hgd]
    exact sorted_getD_mono cards hs r i₀ hri i₀.isLt
  have heq : cards.getD r 0 = pk := le_antisymm hger hple
  refine ⟨r, hrn, heq, ?_⟩
  simp only [ordinalOf, sortSearch]
  refine Prod.ext rfl ?_
  show decide (r < cards.length ∧ cards.getD r 0 = pk) = true
  exact decide_eq_true ⟨hrn, heq⟩

theorem ordinalOf_not_found (cards : List Nat) (pk : Nat) (h : pk ∉ cards) :
    (ordinalOf cards pk).2 = false := by
  simp only [ordinalOf]
  rw [decide_eq_false_iff_not]
  rintro ⟨hlt, hgd⟩
  exact h (hgd ▸ mem_getD cards _ hlt)

theorem sortNat_perm (l : List Nat) : (sortNat l).Perm l := List.mergeSort_perm l _

theorem sortNat_sorted (l : List Nat) : (sortNat l).Sorted (· ≤ ·) := by
  have := @List.sorted_mergeSort Nat (fun a b => decide (a ≤ b))
    (fun a b c hab hbc => decide_eq_true
      (le_trans (of_decide_eq_true hab) (of_decide_eq_true hbc)))
    (fun a b => by
      rcases Nat.le_total a b with h | h
      · simp [decide_eq_true h]
      · simp [decide_eq_true h])
    l
  exact this.imp (fun h => of_decide_eq_true h)

theorem sortNat_eq_of_perm (l l' : List Nat) (h : l.Perm l') : sortNat l = sortNat l' :=
  List.eq_of_perm_of_sorted
    ((sortNat_perm l).trans (h.trans (sortNat_perm l').symm))
    (sortNat_sorted l) (sortNat_sorted l')

theorem sortPairs_perm (ps : List (Nat × Nat)) : (sortPairs ps).Perm ps :=
  List.mergeSort_perm ps _

theorem sortPairs_sorted (ps : List (Nat × Nat)) :
    (sortPairs ps).Pairwise (fun a b => a.1 ≤ b.1) := by
  have := @List.sorted_mergeSort (Nat × Nat) (fun a b => decide (a.1 ≤ b.1))
    (fun a b c hab hbc => decide_eq_true
      (le_trans (of_decide_eq_true hab) (of_decide_eq_true hbc)))
    (fun a b => by
      rcases Nat.le_total a.1 b.1 with h | h
      · simp [decide_eq_true h]
      · simp [decide_eq_true h])
    ps
  exact this.imp (fun h => of_decide_eq_true h)

theorem sortPairs_eq_of_perm (ps ps' : List (Nat × Nat)) (h : ps.Perm ps')
    (hnd : (ps.map Prod.fst).Nodup) : sortPairs ps = sortPairs ps' := by
  haveI : IsAntisymm (Nat × Nat) (fun a b => a.1 < b.1) :=
    ⟨fun a b h1 h2 => absurd (lt_trans h1 h2) (lt_irrefl _)⟩
  apply List.eq_of_perm_of_sorted (r := fun a b : Nat × Nat => a.1 < b.1)
    ((sortPairs_perm ps).trans (h.trans (sortPairs_perm ps').symm))
  · have hnd1 : ((sortPairs ps).map Prod.fst).Nodup :=
      (((sortPairs_perm ps).map (f := Prod.fst)).nodup_iff).mpr hnd
    have hp2 : (sortPairs ps).Pairwise (fun a b => a.1 ≠ b.1) :=
      (List.pairwise_map).mp hnd1
    exact ((sortPairs_sorted ps).and hp2).imp (fun hx => lt_of_le_of_ne hx.1 hx.2)
  · have hnd' : (ps'.map Prod.fst).Nodup := ((h.map (f := Prod.fst)).nodup_iff).mp hnd
    have hnd1 : ((sortPairs ps').map Prod.fst).Nodup :=
      (((sortPairs_perm ps').map (f := Prod.fst)).nodup_iff).mpr hnd'
    have hp2 : (sortPairs ps').Pairwise (fun a b => a.1 ≠ b.1) :=
      (List.pairwise_map).mp hnd1
    exact ((sortPairs_sorted ps').and hp2).imp (fun hx => lt_of_le_of_ne hx.1 hx.2)

theorem toOrdLoop_ok (cards : List Nat) :
    ∀ pks : List Nat, (∀ pk ∈ pks, (ordinalOf cards pk).2 = true) →
    toOrdLoop cards pks = .ok (pks.map (fun pk => (ordinalOf cards pk).1))
  | [], _ => rfl
  | pk :: rest, h => by
    rw [toOrdLoop]
    simp only [h pk (by simp)]
    rw [toOrdLoop_ok cards rest (fun x hx => h x (by simp [hx]))]
    rfl

theorem toOrdLoop_inv (cards : List Nat) :
    ∀ (pks : List Nat) (os : List Nat), toOrdLoop cards pks = .ok os →
    (∀ pk ∈ pks, (ordinalOf cards pk).2 = true) ∧
    os = pks.map (fun pk => (ordinalOf cards pk).1)
  | [], os, h => by
    rw [toOrdLoop] at h
    simp only [Except.ok.injEq] at h
    exact ⟨by simp, h.symm⟩
  | pk :: rest, os, h => by
    rw [toOrdLoop] at h
    by_cases hf : (ordinalOf cards pk).2
    · simp only [hf, if_true] at h
      cases hrest : toOrdLoop cards rest with
      | error e =>
        rw [hrest] at h
        simp [bind, Except.bind] at h
      | ok os' =>
        rw [hrest] at h
        simp only [bind, Except.bind, Except.ok.injEq] at h
        obtain ⟨h1, h2⟩ := toOrdLoop_inv cards rest os' hrest
        refine ⟨?_, ?_⟩
        · intro x hx
          rcases List.mem_cons.mp hx with he | hm
          · subst he
            exact hf
          · exact h1 x hm
        · rw [← h, h2]
          simp
    · simp only [hf, if_false] at h
      simp [if_neg hf] at h

theorem toPairsLoop_ok (cards : List Nat) :
    ∀ deck : List (Nat × Nat),
    (∀ pr ∈ deck, (1 ≤ pr.2 ∧ pr.2 ≤ 4) ∧ (ordinalOf cards pr.1).2 = true) →
    toPairsLoop cards deck = .ok (deck.map (fun pr => ((ordinalOf cards pr.1).1, pr.2)))
  | [], _ => rfl
  | (pk, c) :: rest, h => by
    have hh := h (pk, c) (by simp)
    rw [toPairsLoop]
    rw [if_neg (by omega)]
    simp only [hh.2, if_true]
    rw [toPairsLoop_ok cards rest (fun x hx => h x (by simp [hx]))]
    rfl

theorem toPairsLoop_inv (cards : List Nat) :
    ∀ (deck : List (Nat × Nat)) (ps : List (Nat × Nat)),
    toPairsLoop cards deck = .ok ps →
    (∀ pr ∈ deck, (1 ≤ pr.2 ∧ pr.2 ≤ 4) ∧ (ordinalOf cards pr.1).2 = true) ∧
    ps = deck.map (fun pr => ((ordinalOf cards pr.1).1, pr.2))
  | [], ps, h => by
    rw [toPairsLoop] at h
    simp only [Except.ok.injEq] at h
    exact ⟨by simp, h.symm⟩
  | (pk, c) :: rest, ps, h => by
    rw [toPairsLoop] at h
    by_cases hc : c < 1 ∨ 4 < c
    · rw [if_pos hc] at h
      simp at h
    rw [if_neg hc] at h
    by_cases hf : (ordinalOf cards (pk, c).1).2
    · simp only [hf, if_true] at h
      cases hrest : toPairsLoop cards rest with
      | error e =>
        rw [hrest] at h
        simp [bind, Except.bind] at h
      | ok ps' =>
        rw [hrest] at h
        simp only [bind, Except.bind, Except.ok.injEq] at h
        obtain ⟨h1, h2⟩ := toPairsLoop_inv cards rest ps' hrest
        refine ⟨?_, ?_⟩
        · intro x hx
          rcases List.mem_cons.mp hx with he | hm
          · subst he
            exact ⟨by omega, hf⟩
          · exact h1 x hm
        · rw [← h, h2]
          simp
    · simp only [hf, if_false] at h
      simp [if_neg hf] at h

theorem writeAll_map_ords (L : List Nat) (ib : Nat) (w : Writer) :
    writeAll (L.map (fun o => (o, ib))) w = L.foldl (fun w o => w.writeBits o ib) w := by
  rw [writeAll, List.foldl_map]

theorem writeAll_pairWts (ib : Nat) :
    ∀ (P : List (Nat × Nat)) (w : Writer),
    writeAll (pairWts ib P) w
      = P.foldl (fun w pr => (w.writeBits pr.1 ib).writeBits (pr.2 - 1) 2) w
  | [], w => rfl
  | pr :: rest, w => by
    rw [pairWts, writeAll_cons, writeAll_cons, writeAll_pairWts ib rest]
    rfl

theorem writeAll_encPairs (fid ib : Nat) (L T : List Nat) (P : List (Nat × Nat)) (w : Writer) :
    writeAll (encPairs fid ib L T P) w =
      P.foldl (fun w pr => (w.writeBits pr.1 ib).writeBits (pr.2 - 1) 2)
        (((T.foldl (fun w o => w.writeBits o ib)
            (((L.foldl (fun w o => w.writeBits o ib)
              ((w.writeBits fid 16).writeBits L.length 8))).writeBits T.length 8))).writeBits
          P.length 8) := by
  rw [encPairs, writeAll_cons, writeAll_cons, writeAll_append, writeAll_map_ords,
      writeAll_cons, writeAll_append, writeAll_map_ords, writeAll_cons, writeAll_pairWts]

/-- A successful `Encode` emits exactly the `encPairs` write sequence and
base64url-encodes the finished buffer. -/
theorem encode_eq (p : Pack) (inp : DeckInput) (L T : List Nat) (P0 : List (Nat × Nat))
    (hfid : p.formatID ≠ 0) (hcards : p.cards ≠ [])
    (hL : toOrd p.cards inp.leader = .ok L) (hT : toOrd p.cards inp.tactics = .ok T)
    (hP : toPairsLoop p.cards inp.deck = .ok P0)
    (hL255 : L.length ≤ 255) (hT255 : T.length ≤ 255) (hP255 : (sortPairs P0).length ≤ 255) :
    Encode p inp = .ok (b64EncodeBytes
      ((writeAll (encPairs p.formatID (idBits (p.cards.length : Int)) L T (sortPairs P0))
        Writer.empty).finish)) := by
  rw [Encode]
  simp only [hfid, if_false, hcards, hL, hT, hP, bind, Except.bind,
    if_neg (by omega : ¬ 255 < L.length), if_neg (by omega : ¬ 255 < T.length),
    if_neg (by omega : ¬ 255 < (sortPairs P0).length), ite_false,
    pure, Except.pure, writeAll_encPairs]

/-- Inversion of a successful `Encode`. -/
theorem encode_inv (p : Pack) (inp : DeckInput) (s : List Char)
    (h : Encode p inp = .ok s) :
    p.formatID ≠ 0 ∧ p.cards ≠ [] ∧
    ∃ L T P0, toOrd p.cards inp.leader = .ok L ∧ toOrd p.cards inp.tactics = .ok T ∧
      toPairsLoop p.cards inp.deck = .ok P0 ∧ L.length ≤ 255 ∧ T.length ≤ 255 ∧
      (sortPairs P0).length ≤ 255 ∧
      s = b64EncodeBytes
        ((writeAll (encPairs p.formatID (idBits (p.cards.length : Int)) L T (sortPairs P0))
          Writer.empty).finish) := by
  have h0 := h
  rw [Encode] at h
  by_cases hfid : p.formatID = 0
  · simp [hfid, throw, throwThe, MonadExceptOf.throw, bind, Except.bind, pure, Except.pure] at h
  by_cases hcards : p.cards = []
  · simp [hfid, hcards, throw, throwThe, MonadExceptOf.throw, bind, Except.bind, pure, Except.pure] at h
  cases hL : toOrd p.cards inp.leader with
  | error e => simp [hfid, hcards, hL, throw, throwThe, MonadExceptOf.throw, bind, Except.bind, pure, Except.pure] at h
  | ok L =>
  cases hT : toOrd p.cards inp.tactics with
  | error e => simp [hfid, hcards, hL, hT, throw, throwThe, MonadExceptOf.throw, bind, Except.bind, pure, Except.pure] at h
  | ok T =>
  cases hP : toPairsLoop p.cards inp.deck with
  | error e => simp [hfid, hcards, hL, hT, hP, throw, throwThe, MonadExceptOf.throw, bind, Except.bind, pure, Except.pure] at h
  | ok P0 =>
  by_cases hL255 : 255 < L.length
  · simp [hfid, hcards, hL, hT, hP, hL255, throw, throwThe, MonadExceptOf.throw, bind, Except.bind, pure, Except.pure] at h
  by_cases hT255 : 255 < T.length
  · simp [hfid, hcards, hL, hT, hP, hL255, hT255, throw, throwThe, MonadExceptOf.throw, bind, Except.bind, pure, Except.pure] at h
  by_cases hP255 : 255 < (sortPairs P0).length
  · simp [hfid, hcards, hL, hT, hP, hL255, hT255, hP255, throw, throwThe, MonadExceptOf.throw, bind, Except.bind, pure, Except.pure] at h
  have he := encode_eq p inp L T P0 hfid hcards hL hT hP (by omega) (by omega) (by omega)
  have hs : s = b64EncodeBytes
      ((writeAll (encPairs p.formatID (idBits (p.cards.length : Int)) L T (sortPairs P0))
        Writer.empty).finish) := by
    have := he.symm.trans h0
    injection this with h2
    exact h2.symm
  exact ⟨hfid, hcards, L, T, P0, rfl, rfl, rfl, by omega, by omega, by omega, hs⟩

theorem rb_ok (r : Reader) (width v : Nat) (r' : Reader)
    (h : r.readBits width = some (v, r')) : rb r width = .ok (v, r') := by
  rw [rb, h]

theorem rb_err (r : Reader) (width : Nat)
    (h : r.readBits width = none) : rb r width = .error .shortRead := by
  rw [rb, h]

theorem NewReader_full (src : List Nat) :
    NewReader src (8 * (src.length : Int)) = ⟨src, 0, 0, 0, 8 * src.length⟩ := by
  rw [NewReader, if_neg (by omega)]
  have h : (8 * (src.length : Int)).toNat = 8 * src.length := by omega
  rw [h]

theorem RinvCore_init (src : List Nat) (rem : Nat) (h256 : ∀ b ∈ src, b < 256) :
    RinvCore ⟨src, 0, 0, 0, rem⟩ (bytesVal src) 0 :=
  ⟨rfl, h256, rfl, by simp, by simp [Nat.mod_one]⟩

theorem readPKs_spec (cards : List Nat) (ib : Nat) (S : Nat) :
    ∀ (L : List Nat) (r : Reader) (pos : Nat),
    RinvCore r S pos →
    agrees S pos (L.map (fun o => (o, ib))) →
    (∀ o ∈ L, o < cards.length ∧ o < 2 ^ ib ∧ o < 2 ^ 32) →
    ib * L.length ≤ r.rem → pos + r.rem ≤ 8 * r.src.length →
    ∃ r', readPKs cards ib L.length r = .ok (L.map (fun o => cards.getD o 0), r') ∧
      RinvCore r' S (pos + ib * L.length) ∧ r'.rem = r.rem - ib * L.length ∧
      r'.src = r.src
  | [], r, pos, hinv, _, _, _, _ => by
    refine ⟨r, rfl, ?_, by simp, rfl⟩
    simpa using hinv
  | o :: L, r, pos, hinv, hag, hbnd, hrem, hphys => by
    obtain ⟨hago, hagL⟩ := hag
    obtain ⟨ho1, ho2, ho3⟩ := hbnd o (by simp)
    have hms : ib * (o :: L).length = ib * L.length + ib := by
      rw [List.length_cons, Nat.mul_succ]
    have hrem' : ib * L.length + ib ≤ r.rem := by omega
    obtain ⟨r₁, hread, hinv₁, hrem₁, hsrc₁⟩ :=
      readBits_spec r ib S pos hinv (by omega) hphys
    have hv : S / 2 ^ pos % 2 ^ ib % 2 ^ 32 = o := by
      have : S / 2 ^ pos % 2 ^ ib = o % 2 ^ ib := hago
      rw [this, Nat.mod_eq_of_lt ho2, Nat.mod_eq_of_lt ho3]
    rw [hv] at hread
    obtain ⟨r', hrec, hinv', hrem', hsrc'⟩ :=
      readPKs_spec cards ib S L r₁ (pos + ib) hinv₁ hagL
        (fun x hx => hbnd x (by simp [hx]))
        (by omega)
        (by rw [hrem₁, hsrc₁]; omega)
    refine ⟨r', ?_, ?_, ?_, by rw [hsrc', hsrc₁]⟩
    · rw [List.length_cons, readPKs]
      rw [rb_ok r ib o r₁ hread]
      simp only [bind, Except.bind]
      rw [toPK, if_neg (by omega)]
      rw [hrec]
      rfl
    · have harith : pos + ib * (o :: L).length = pos + ib + ib * L.length := by
        rw [hms]
        ring
      rw [harith]
      exact hinv'
    · rw [hrem', hrem₁, hms]
      omega

theorem readDeckPairs_spec (cards : List Nat) (ib : Nat) (S : Nat) :
    ∀ (P : List (Nat × Nat)) (r : Reader) (pos : Nat),
    RinvCore r S pos →
    agrees S pos (pairWts ib P) →
    (∀ pr ∈ P, pr.1 < cards.length ∧ pr.1 < 2 ^ ib ∧ pr.1 < 2 ^ 32 ∧
      1 ≤ pr.2 ∧ pr.2 ≤ 4) →
    (ib + 2) * P.length ≤ r.rem → pos + r.rem ≤ 8 * r.src.length →
    ∃ r', readDeckPairs cards ib P.length r
        = .ok (P.map (fun pr => (cards.getD pr.1 0, pr.2)), r') ∧
      r'.src = r.src
  | [], r, pos, hinv, _, _, _, _ => ⟨r, rfl, rfl⟩
  | pr :: P, r, pos, hinv, hag, hbnd, hrem, hphys => by
    obtain ⟨hago, hagc, hagP⟩ := hag
    obtain ⟨ho1, ho2, ho3, hc1, hc4⟩ := hbnd pr (by simp)
    have hms : (ib + 2) * (pr :: P).length = (ib + 2) * P.length + ib + 2 := by
      rw [List.length_cons, Nat.mul_succ]
      ring
    obtain ⟨r₁, hread₁, hinv₁, hrem₁, hsrc₁⟩ :=
      readBits_spec r ib S pos hinv (by omega) hphys
    have hv₁ : S / 2 ^ pos % 2 ^ ib % 2 ^ 32 = pr.1 := by
      have : S / 2 ^ pos % 2 ^ ib = pr.1 % 2 ^ ib := hago
      rw [this, Nat.mod_eq_of_lt ho2, Nat.mod_eq_of_lt ho3]
    rw [hv₁] at hread₁
    obtain ⟨r₂, hread₂, hinv₂, hrem₂, hsrc₂⟩ :=
      readBits_spec r₁ 2 S (pos + ib) hinv₁
        (by omega)
        (by rw [hrem₁, hsrc₁]; omega)
    have hv₂ : S / 2 ^ (pos + ib) % 2 ^ 2 % 2 ^ 32 = pr.2 - 1 := by
      have h22 : S / 2 ^ (pos + ib) % 2 ^ 2 = (pr.2 - 1) % 2 ^ 2 := hagc
      rw [h22, Nat.mod_eq_of_lt (by norm_num; omega),
        Nat.mod_eq_of_lt (by norm_num; omega)]
    rw [hv₂] at hread₂
    obtain ⟨r', hrec, hsrc'⟩ :=
      readDeckPairs_spec cards ib S P r₂ (pos + ib + 2) hinv₂ hagP
        (fun x hx => hbnd x (by simp [hx]))
        (by omega)
        (by rw [hrem₂, hrem₁, hsrc₂, hsrc₁]; omega)
    refine ⟨r', ?_, by rw [hsrc', hsrc₂, hsrc₁]⟩
    rw [List.length_cons, readDeckPairs]
    rw [rb_ok r ib pr.1 r₁ hread₁]
    simp only [bind, Except.bind]
    rw [rb_ok r₁ 2 (pr.2 - 1) r₂ hread₂]
    rw [toPK, if_neg (by omega)]
    dsimp only
    rw [hrec]
    simp only [List.map_cons, Except.ok.injEq, Prod.mk.injEq, List.cons.injEq,
               eq_self_iff_true, and_true, true_and]
    omega

theorem totalBits_map_ords (L : List Nat) (ib : Nat) :
    totalBits (L.map (fun o => (o, ib))) = ib * L.length := by
  induction L with
  | nil => simp [totalBits]
  | cons o L ih =>
    rw [List.map_cons, totalBits_cons, ih, List.length_cons, Nat.mul_succ]
    omega

theorem totalBits_pairWts (ib : Nat) :
    ∀ P : List (Nat × Nat), totalBits (pairWts ib P) = (ib + 2) * P.length
  | [] => by simp [pairWts, totalBits]
  | pr :: P => by
    rw [pairWts, totalBits_cons, totalBits_cons, totalBits_pairWts ib P,
        List.length_cons, Nat.mul_succ]
    omega

theorem totalBits_encPairs (fid ib : Nat) (L T : List Nat) (P : List (Nat × Nat)) :
    totalBits (encPairs fid ib L T P)
      = 40 + ib * L.length + ib * T.length + (ib + 2) * P.length := by
  rw [encPairs, totalBits_cons, totalBits_cons, totalBits_append, totalBits_map_ords,
      totalBits_cons, totalBits_append, totalBits_map_ords, totalBits_cons,
      totalBits_pairWts]
  omega

/-- Decoding the byte stream produced by `encPairs` recovers the sections
exactly: the heart of the round-trip property. -/
theorem decode_encoded (p : Pack) (L T : List Nat) (P : List (Nat × Nat))
    (hfid : p.formatID < 2 ^ 16)
    (hL255 : L.length ≤ 255) (hT255 : T.length ≤ 255) (hP255 : P.length ≤ 255)
    (hLb : ∀ o ∈ L, o < p.cards.length)
    (hTb : ∀ o ∈ T, o < p.cards.length)
    (hPb : ∀ pr ∈ P, pr.1 < p.cards.length ∧ 1 ≤ pr.2 ∧ pr.2 ≤ 4)
    (hM : p.cards.length ≤ 2 ^ 32) (hMpos : p.cards ≠ []) :
    Decode p (b64EncodeBytes
        ((writeAll (encPairs p.formatID (idBits (p.cards.length : Int)) L T P)
          Writer.empty).finish))
      = .ok ⟨p.formatID, L.map (fun o => p.cards.getD o 0),
             T.map (fun o => p.cards.getD o 0),
             buildDeckMap (P.map (fun pr => (p.cards.getD pr.1 0, pr.2)))⟩ := by
  obtain ⟨hb256, hlen, hbits, hag⟩ :=
    stream_spec (encPairs p.formatID (idBits (p.cards.length : Int)) L T P)
  set ib := idBits (p.cards.length : Int) with hib
  set bytes := (writeAll (encPairs p.formatID ib L T P) Writer.empty).finish with hbytes
  set S := bytesVal bytes with hS
  have hlenpos : 1 ≤ p.cards.length := by
    cases hc : p.cards
    · exact absurd hc hMpos
    · simp [hc]
  have hib32 : ib ≤ 32 := idBits_le _ 32 (by omega) hM
  have hibge : p.cards.length ≤ 2 ^ ib := idBits_ge _ hlenpos
  have h32 : (2 : Nat) ^ ib ≤ 2 ^ 32 := Nat.pow_le_pow_right (by omega) hib32
  -- decompose the stream agreement into per-section pieces
  rw [encPairs] at hag
  obtain ⟨hagF, hagNL, hag⟩ := hag
  obtain ⟨hagL, hag⟩ := agrees_append S _ _ _ hag
  rw [totalBits_map_ords] at hag
  obtain ⟨hagNT, hag⟩ := hag
  obtain ⟨hagT, hag⟩ := agrees_append S _ _ _ hag
  rw [totalBits_map_ords] at hag
  obtain ⟨hagNP, hagP⟩ := hag
  dsimp only at hagF hagNL hagNT hagNP
  rw [totalBits_encPairs] at hbits
  -- total-bit budget
  have htot : 40 + ib * L.length + ib * T.length + (ib + 2) * P.length
      ≤ 8 * bytes.length := hbits
  -- initial reader state
  have hinv₀ := RinvCore_init bytes (8 * bytes.length) hb256
  -- read the 16-bit header
  obtain ⟨r₁, hrd₁, hinv₁, hrem₁, hsrc₁⟩ :=
    readBits_spec ⟨bytes, 0, 0, 0, 8 * bytes.length⟩ 16 S 0 hinv₀
      (by simp; omega) (by simp)
  have hv₁ : S / 2 ^ 0 % 2 ^ 16 % 2 ^ 32 = p.formatID := by
    rw [hagF, Nat.mod_eq_of_lt hfid, Nat.mod_eq_of_lt (by omega)]
  rw [hv₁] at hrd₁
  -- read the 8-bit leader count
  obtain ⟨r₂, hrd₂, hinv₂, hrem₂, hsrc₂⟩ :=
    readBits_spec r₁ 8 S (0 + 16) hinv₁
      (by rw [hrem₁]; simp; omega) (by rw [hrem₁, hsrc₁]; simp; omega)
  have hv₂ : S / 2 ^ (0 + 16) % 2 ^ 8 % 2 ^ 32 = L.length := by
    rw [hagNL, Nat.mod_eq_of_lt (by omega), Nat.mod_eq_of_lt (by omega)]
  rw [hv₂] at hrd₂
  -- read the leader ordinals
  obtain ⟨r₃, hrdL, hinv₃, hrem₃, hsrc₃⟩ :=
    readPKs_spec p.cards ib S L r₂ (0 + 16 + 8) hinv₂
      (by simpa using hagL)
      (fun o ho => ⟨hLb o ho, by have := hLb o ho; omega, by have := hLb o ho; omega⟩)
      (by rw [hrem₂, hrem₁]; simp; omega)
      (by rw [hrem₂, hrem₁, hsrc₂, hsrc₁]; simp; omega)
  -- read the 8-bit tactics count
  obtain ⟨r₄, hrd₄, hinv₄, hrem₄, hsrc₄⟩ :=
    readBits_spec r₃ 8 S (0 + 16 + 8 + ib * L.length) hinv₃
      (by rw [hrem₃, hrem₂, hrem₁]; simp; omega)
      (by rw [hrem₃, hrem₂, hrem₁, hsrc₃, hsrc₂, hsrc₁]; simp; omega)
  have hv₄ : S / 2 ^ (0 + 16 + 8 + ib * L.length) % 2 ^ 8 % 2 ^ 32 = T.length := by
    have hpp : 0 + 16 + 8 + ib * L.length = 0 + 16 + 8 + ib * L.length := rfl
    rw [show S / 2 ^ (0 + 16 + 8 + ib * L.length) % 2 ^ 8 = T.length % 2 ^ 8 from hagNT,
        Nat.mod_eq_of_lt (by omega), Nat.mod_eq_of_lt (by omega)]
  rw [hv₄] at hrd₄
  -- read the tactics ordinals
  obtain ⟨r₅, hrdT, hinv₅, hrem₅, hsrc₅⟩ :=
    readPKs_spec p.cards ib S T r₄ (0 + 16 + 8 + ib * L.length + 8) hinv₄
      (by simpa using hagT)
      (fun o ho => ⟨hTb o ho, by have := hTb o ho; omega, by have := hTb o ho; omega⟩)
      (by rw [hrem₄, hrem₃, hrem₂, hrem₁]; simp; omega)
      (by rw [hrem₄, hrem₃, hrem₂, hrem₁, hsrc₄, hsrc₃, hsrc₂, hsrc₁]; simp; omega)
  -- read the 8-bit deck count
  obtain ⟨r₆, hrd₆, hinv₆, hrem₆, hsrc₆⟩ :=
    readBits_spec r₅ 8 S (0 + 16 + 8 + ib * L.length + 8 + ib * T.length) hinv₅
      (by rw [hrem₅, hrem₄, hrem₃, hrem₂, hrem₁]; simp; omega)
      (by rw [hrem₅, hrem₄, hrem₃, hrem₂, hrem₁, hsrc₅, hsrc₄, hsrc₃, hsrc₂, hsrc₁]
          simp; omega)
  have hv₆ : S / 2 ^ (0 + 16 + 8 + ib * L.length + 8 + ib * T.length) % 2 ^ 8 % 2 ^ 32
      = P.length := by
    rw [show S / 2 ^ (0 + 16 + 8 + ib * L.length + 8 + ib * T.length) % 2 ^ 8
          = P.length % 2 ^ 8 from hagNP,
        Nat.mod_eq_of_lt (by omega), Nat.mod_eq_of_lt (by omega)]
  rw [hv₆] at hrd₆
  -- read the main-deck pairs
  obtain ⟨r₇, hrdP, hsrc₇⟩ :=
    readDeckPairs_spec p.cards ib S P r₆
      (0 + 16 + 8 + ib * L.length + 8 + ib * T.length + 8) hinv₆
      (by simpa using hagP)
      (fun pr hpr => ⟨(hPb pr hpr).1, by have := (hPb pr hpr).1; omega,
        by have := (hPb pr hpr).1; omega, (hPb pr hpr).2.1, (hPb pr hpr).2.2⟩)
      (by rw [hrem₆, hrem₅, hrem₄, hrem₃, hrem₂, hrem₁]; simp; omega)
      (by rw [hrem₆, hrem₅, hrem₄, hrem₃, hrem₂, hrem₁,
              hsrc₆, hsrc₅, hsrc₄, hsrc₃, hsrc₂, hsrc₁]
          simp; omega)
  -- assemble the Decode run
  rw [Decode, b64_roundtrip bytes hb256]
  simp only [bind, Except.bind, pure, Except.pure]
  rw [NewReader_full bytes]
  simp only [rb_ok _ 16 _ _ hrd₁, rb_ok _ 8 _ _ hrd₂, rb_ok _ 8 _ _ hrd₄,
    rb_ok _ 8 _ _ hrd₆, hrdL, hrdT, hrdP, Nat.mod_eq_of_lt hfid, ne_eq,
    not_true_eq_false, if_false, ite_false]

theorem buildDeckMap_aux :
    ∀ (ps acc : List (Nat × Nat)),
    (∀ k ∈ ps.map Prod.fst, k ∉ acc.map Prod.fst) → (ps.map Prod.fst).Nodup →
    ps.foldl (fun m pr => mapUpsert m pr.1 pr.2) acc = acc ++ ps
  | [], acc, _, _ => by simp
  | pr :: ps, acc, hdisj, hnd => by
    have hnotin : pr.1 ∉ acc.map Prod.fst := hdisj pr.1 (by simp)
    rw [List.map_cons, List.nodup_cons] at hnd
    have hup : mapUpsert acc pr.1 pr.2 = acc ++ [(pr.1, pr.2)] := by
      rw [mapUpsert, if_neg (by
        intro hany
        rw [List.any_eq_true] at hany
        obtain ⟨x, hx, hxe⟩ := hany
        exact hnotin (List.mem_map.mpr ⟨x, hx, of_decide_eq_true hxe⟩))]
    have hdisj' : ∀ k ∈ ps.map Prod.fst, k ∉ (acc ++ [(pr.1, pr.2)]).map Prod.fst := by
      intro k hk
      rw [List.map_append, List.mem_append]
      rintro (h1 | h2)
      · exact hdisj k (by simp [hk]) h1
      · simp at h2
        exact hnd.1 (h2 ▸ hk)
    rw [List.foldl_cons, hup, buildDeckMap_aux ps _ hdisj' hnd.2]
    simp

/-- On a key-unique pair list, map insertion in order reproduces the
list itself. -/
theorem buildDeckMap_eq (ps : List (Nat × Nat)) (h : (ps.map Prod.fst).Nodup) :
    buildDeckMap ps = ps := by
  rw [buildDeckMap, buildDeckMap_aux ps [] (by simp) h]
  simp

/-- Mapping a sorted ordinal list through a sorted card list yields a
sorted identifier list. -/
theorem sorted_map_getD (cards : List Nat) (hs : cards.Sorted (· ≤ ·))
    (L : List Nat) (hL : L.Sorted (· ≤ ·)) (hb : ∀ o ∈ L, o < cards.length) :
    (L.map (fun o => cards.getD o 0)).Sorted (· ≤ ·) := by
  rw [List.Sorted, List.pairwise_map]
  exact (List.Pairwise.and_mem.mp hL).imp
    (fun h => sorted_getD_mono cards hs _ _ h.2.2 (hb _ h.2.1))

/-- On a strictly ascending card list of `uint32`-addressable size,
`ordinalOf` finds each member at an untruncated index. -/
theorem pack_ord (cards : List Nat) (hsort : cards.Sorted (· < ·))
    (hM : cards.length ≤ 2 ^ 32) (pk : Nat) (hmem : pk ∈ cards) :
    (ordinalOf cards pk).2 = true ∧ (ordinalOf cards pk).1 < cards.length ∧
    cards.getD (ordinalOf cards pk).1 0 = pk := by
  have hle : cards.Sorted (· ≤ ·) := hsort.imp le_of_lt
  obtain ⟨i, hi, hgd, heq⟩ := ordinalOf_found cards hle pk hmem
  have hmod : i % 2 ^ 32 = i := Nat.mod_eq_of_lt (by omega)
  rw [heq, hmod]
  exact ⟨rfl, hi, hgd⟩

/-- C4: against a physically consistent declared valid-bit budget,
`ReadBits(width)` fails with the short-read error exactly when fewer than
`width` valid bits remain; `NewReader` with a budget within the physical
bytes is physically consistent, successful reads consume exactly `width`
valid bits and stay consistent; and after writing 5 bits, a reader
declared 5 bits valid succeeds on a 3-bit read and fails with the
short-read error on the following 3-bit read. -/
theorem C4_short_read :
    (∀ (r : Reader) (width : Nat), physOK r → (r.readBits width = none ↔ r.rem < width)) ∧
    (∀ (src : List Nat) (vb : Int), 0 ≤ vb → vb.toNat ≤ 8 * src.length →
      physOK (NewReader src vb)) ∧
    (∀ (r : Reader) (width v : Nat) (r' : Reader), physOK r →
      r.readBits width = some (v, r') → physOK r' ∧ r'.rem = r.rem - width) ∧
    (∀ v : Nat, ∃ x r',
      (NewReader ((Writer.empty.writeBits v 5).finish) 5).readBits 3 = some (x, r') ∧
      r'.readBits 3 = none) := by
  refine ⟨readBits_none_iff, ?_, ?_, ?_⟩
  · intro src vb h0 hle
    rw [NewReader, if_neg (by omega)]
    exact ⟨by simp, by simp; omega⟩
  · intro r width v r' h hs
    obtain ⟨h1, h2, _⟩ := readBits_physOK r width h v r' hs
    exact ⟨h1, h2⟩
  · intro v
    have hst := stream_spec [(v, 5)]
    have hw5 : writeAll [(v, 5)] Writer.empty = Writer.empty.writeBits v 5 := rfl
    rw [hw5] at hst
    obtain ⟨hb256, hlen, hbits, _⟩ := hst
    have hlen1 : (Writer.empty.writeBits v 5).finish.length = 1 := by
      rw [hlen]
      simp [totalBits]
    have hnr : NewReader ((Writer.empty.writeBits v 5).finish) 5
        = ⟨(Writer.empty.writeBits v 5).finish, 0, 0, 0, 5⟩ := by
      rw [NewReader, if_neg (by omega)]
      rfl
    have hphys : physOK (⟨(Writer.empty.writeBits v 5).finish, 0, 0, 0, 5⟩ : Reader) := by
      refine ⟨by simp, ?_⟩
      simp [hlen1]
    have hsome : (⟨(Writer.empty.writeBits v 5).finish, 0, 0, 0, 5⟩ : Reader).readBits 3
        ≠ none := fun hn => by
      have := (readBits_none_iff _ 3 hphys).mp hn
      simp at this
    cases hs : (⟨(Writer.empty.writeBits v 5).finish, 0, 0, 0, 5⟩ : Reader).readBits 3 with
    | none => exact absurd hs hsome
    | some xr =>
      obtain ⟨x, r'⟩ := xr
      refine ⟨x, r', by rw [hnr]; exact hs, ?_⟩
      obtain ⟨hp', hrem', _⟩ := readBits_physOK _ 3 hphys x r' hs
      rw [readBits_none_iff r' 3 hp', hrem']
      dsimp only
      omega

/-- Witness for C4 at a concrete reader state and a concrete 5-bit write. -/
theorem C4_short_read_witness :
    physOK (⟨[21], 0, 0, 0, 5⟩ : Reader) ∧
    ((⟨[21], 0, 0, 0, 5⟩ : Reader).readBits 7 = none ↔ (5 : Nat) < 7) ∧
    (∃ x r', (NewReader ((Writer.empty.writeBits 21 5).finish) 5).readBits 3
        = some (x, r') ∧ r'.readBits 3 = none) :=
  ⟨⟨by decide, by decide⟩,
   C4_short_read.1 ⟨[21], 0, 0, 0, 5⟩ 7 ⟨by decide, by decide⟩,
   C4_short_read.2.2.2 21⟩

/-- C5: writing any finite sequence of (value, width) pairs with widths
at most 32 and finishing yields `ceil(totalBits/8)` bytes, and reading
the buffer back at the same widths returns every value masked to its
width. -/
theorem C5_bit_io (ps : List (Nat × Nat)) (hw : ∀ pr ∈ ps, pr.2 ≤ 32) :
    ((writeAll ps Writer.empty).finish).length = (totalBits ps + 7) / 8 ∧
    readValues (NewReader ((writeAll ps Writer.empty).finish)
        (8 * ((((writeAll ps Writer.empty).finish).length : Nat) : Int)))
      (ps.map Prod.snd) = some (ps.map (fun pr => pr.1 % 2 ^ pr.2)) := by
  obtain ⟨hb256, hlen, hbits, hag⟩ := stream_spec ps
  refine ⟨hlen, ?_⟩
  rw [NewReader_full]
  exact readValues_spec (bytesVal ((writeAll ps Writer.empty).finish)) ps
    ⟨(writeAll ps Writer.empty).finish, 0, 0, 0,
      8 * ((writeAll ps Writer.empty).finish).length⟩ 0
    (RinvCore_init _ _ hb256) hag hw (by simpa using hbits) (by simp)

/-- Witness for C5 on a concrete write sequence (widths 3, 5, 2). -/
theorem C5_bit_io_witness :
    (∀ pr ∈ [((5 : Nat), (3 : Nat)), (29, 5), (7, 2)], pr.2 ≤ 32) ∧
    (((writeAll [((5 : Nat), (3 : Nat)), (29, 5), (7, 2)] Writer.empty).finish).length
        = (totalBits [((5 : Nat), (3 : Nat)), (29, 5), (7, 2)] + 7) / 8 ∧
      readValues (NewReader ((writeAll [((5 : Nat), (3 : Nat)), (29, 5), (7, 2)]
            Writer.empty).finish)
          (8 * ((((writeAll [((5 : Nat), (3 : Nat)), (29, 5), (7, 2)]
            Writer.empty).finish).length : Nat) : Int)))
        ([((5 : Nat), (3 : Nat)), (29, 5), (7, 2)].map Prod.snd)
        = some ([((5 : Nat), (3 : Nat)), (29, 5), (7, 2)].map
            (fun pr => pr.1 % 2 ^ pr.2))) :=
  ⟨by decide, C5_bit_io _ (by decide)⟩

/-- C6: `idBits(M)` is 1 for every integer `M ≤ 1`, and for `M > 1` it is
the least `b` with `2^b ≥ M`. -/
theorem C6_idBits (m : Int) :
    (m ≤ 1 → idBits m = 1) ∧
    (1 < m → m ≤ 2 ^ idBits m ∧ ∀ b : Nat, m ≤ 2 ^ b → idBits m ≤ b) :=
  idBits_spec m

/-- Witness for C6 at `M = 26` (and the small branch at `M = 1`). -/
theorem C6_idBits_witness :
    ((1 : Int) ≤ 1 ∧ idBits 1 = 1) ∧
    ((1 : Int) < 26 ∧ ((26 : Int) ≤ 2 ^ idBits 26 ∧
      ∀ b : Nat, (26 : Int) ≤ 2 ^ b → idBits 26 ≤ b)) :=
  ⟨⟨by norm_num, (C6_idBits 1).1 (by norm_num)⟩,
   ⟨by norm_num, (C6_idBits 26).2 (by norm_num)⟩⟩

/-- C9: `MayContainAll` returns true on an absent filter, and on a
present filter computes exactly the conjunction of the per-identifier
membership tests. -/
theorem C9_mayContainAll :
    (∀ pks : List Nat, MayContainAll none pks = true) ∧
    (∀ (f : Nat → Bool) (pks : List Nat), MayContainAll (some f) pks = pks.all f) := by
  constructor
  · intro pks
    induction pks with
    | nil => rfl
    | cons x l ih => rw [MayContainAll, ih]
  · intro f pks
    induction pks with
    | nil => rfl
    | cons x l ih =>
      rw [MayContainAll, List.all_cons, ih]
      cases hx : f x <;> simp [hx]

theorem toOrd_inv (cards pks : List Nat) (L : List Nat)
    (h : toOrd cards pks = .ok L) :
    ∃ os, toOrdLoop cards pks = .ok os ∧ L = sortNat os := by
  rw [toOrd] at h
  cases hl : toOrdLoop cards pks with
  | error e =>
    rw [hl] at h
    simp [bind, Except.bind] at h
  | ok os =>
    rw [hl] at h
    simp only [bind, Except.bind, Except.ok.injEq] at h
    exact ⟨os, rfl, h.symm⟩

theorem ordinalOf_found_getD (cards : List Nat) (pk : Nat) (hM : cards.length ≤ 2 ^ 32)
    (h : (ordinalOf cards pk).2 = true) :
    (ordinalOf cards pk).1 < cards.length ∧
    cards.getD (ordinalOf cards pk).1 0 = pk := by
  rw [ordinalOf] at h ⊢
  simp only [decide_eq_true_eq] at h
  obtain ⟨hi, hg⟩ := h
  have hmod : sortSearch cards.length (fun k => pk ≤ cards.getD k 0) % 2 ^ 32
      = sortSearch cards.length (fun k => pk ≤ cards.getD k 0) :=
    Nat.mod_eq_of_lt (by omega)
  simp only [hmod]
  exact ⟨hi, hg⟩

theorem ordinalOf_inj (cards : List Nat) (pk pk' : Nat) (hM : cards.length ≤ 2 ^ 32)
    (h : (ordinalOf cards pk).2 = true) (h' : (ordinalOf cards pk').2 = true)
    (heq : (ordinalOf cards pk).1 = (ordinalOf cards pk').1) : pk = pk' := by
  obtain ⟨_, hg⟩ := ordinalOf_found_getD cards pk hM h
  obtain ⟨_, hg'⟩ := ordinalOf_found_getD cards pk' hM h'
  rw [← hg, ← hg', heq]

/-- Full characterization of `toOrd` on a valid leader/tactics section
over a strictly ascending pack. -/
theorem toOrd_valid (cards : List Nat) (hsort : cards.Sorted (· < ·))
    (hM : cards.length ≤ 2 ^ 32) (pks : List Nat)
    (hmem : ∀ pk ∈ pks, pk ∈ cards) :
    toOrd cards pks = .ok (sortNat (pks.map (fun pk => (ordinalOf cards pk).1))) ∧
    (∀ o ∈ sortNat (pks.map (fun pk => (ordinalOf cards pk).1)), o < cards.length) ∧
    ((sortNat (pks.map (fun pk => (ordinalOf cards pk).1))).map
      (fun o => cards.getD o 0)).Perm pks ∧
    ((sortNat (pks.map (fun pk => (ordinalOf cards pk).1))).map
      (fun o => cards.getD o 0)).Sorted (· ≤ ·) ∧
    (sortNat (pks.map (fun pk => (ordinalOf cards pk).1))).length = pks.length := by
  have hfound : ∀ pk ∈ pks, (ordinalOf cards pk).2 = true := fun pk hpk =>
    (pack_ord cards hsort hM pk (hmem pk hpk)).1
  have hloop := toOrdLoop_ok cards pks hfound
  have hperm := sortNat_perm (pks.map (fun pk => (ordinalOf cards pk).1))
  have hb : ∀ o ∈ sortNat (pks.map (fun pk => (ordinalOf cards pk).1)),
      o < cards.length := by
    intro o ho
    have := hperm.mem_iff.mp ho
    obtain ⟨pk, hpk, hpke⟩ := List.mem_map.mp this
    rw [← hpke]
    exact (pack_ord cards hsort hM pk (hmem pk hpk)).2.1
  have hmapgd : (pks.map (fun pk => (ordinalOf cards pk).1)).map
      (fun o => cards.getD o 0) = pks := by
    rw [List.map_map]
    have : ∀ pk ∈ pks,
        ((fun o => cards.getD o 0) ∘ fun pk => (ordinalOf cards pk).1) pk = id pk := by
      intro pk hpk
      exact (pack_ord cards hsort hM pk (hmem pk hpk)).2.2
    rw [List.map_congr_left this, List.map_id]
  refine ⟨?_, hb, ?_, ?_, ?_⟩
  · rw [toOrd, hloop]
    rfl
  · exact (hperm.map _).trans (by rw [hmapgd])
  · exact sorted_map_getD cards (hsort.imp le_of_lt) _ (sortNat_sorted _) hb
  · rw [hperm.length_eq, List.length_map]
  

/-- Full characterization of the main-deck section on a valid deck over
a strictly ascending pack. -/
theorem toPairs_valid (cards : List Nat) (hsort : cards.Sorted (· < ·))
    (hM : cards.length ≤ 2 ^ 32) (deck : List (Nat × Nat))
    (hmem : ∀ pr ∈ deck, pr.1 ∈ cards) (hcnt : ∀ pr ∈ deck, 1 ≤ pr.2 ∧ pr.2 ≤ 4)
    (hnd : (deck.map Prod.fst).Nodup) :
    toPairsLoop cards deck
      = .ok (deck.map (fun pr => ((ordinalOf cards pr.1).1, pr.2))) ∧
    (∀ pr ∈ sortPairs (deck.map (fun pr => ((ordinalOf cards pr.1).1, pr.2))),
      pr.1 < cards.length ∧ 1 ≤ pr.2 ∧ pr.2 ≤ 4) ∧
    ((sortPairs (deck.map (fun pr => ((ordinalOf cards pr.1).1, pr.2)))).map
      (fun pr => (cards.getD pr.1 0, pr.2))).Perm deck ∧
    (((sortPairs (deck.map (fun pr => ((ordinalOf cards pr.1).1, pr.2)))).map
      (fun pr => (cards.getD pr.1 0, pr.2))).map Prod.fst).Nodup ∧
    (sortPairs (deck.map (fun pr => ((ordinalOf cards pr.1).1, pr.2)))).length
      = deck.length := by
  have hvalid : ∀ pr ∈ deck, (1 ≤ pr.2 ∧ pr.2 ≤ 4) ∧ (ordinalOf cards pr.1).2 = true :=
    fun pr hpr => ⟨hcnt pr hpr, (pack_ord cards hsort hM pr.1 (hmem pr hpr)).1⟩
  have hloop := toPairsLoop_ok cards deck (fun pr hpr => hvalid pr hpr)
  set P0 := deck.map (fun pr => ((ordinalOf cards pr.1).1, pr.2)) with hP0
  have hperm := sortPairs_perm P0
  have hmemP : ∀ pr ∈ sortPairs P0, pr ∈ P0 := fun pr hpr => hperm.mem_iff.mp hpr
  have hbnd : ∀ pr ∈ sortPairs P0, pr.1 < cards.length ∧ 1 ≤ pr.2 ∧ pr.2 ≤ 4 := by
    intro pr hpr
    obtain ⟨q, hq, hqe⟩ := List.mem_map.mp (hmemP pr hpr)
    rw [← hqe]
    exact ⟨(pack_ord cards hsort hM q.1 (hmem q hq)).2.1,
      (hcnt q hq).1, (hcnt q hq).2⟩
  have hmapgd : P0.map (fun pr => (cards.getD pr.1 0, pr.2)) = deck := by
    rw [hP0, List.map_map]
    have : ∀ pr ∈ deck,
        ((fun pr => (cards.getD pr.1 0, pr.2)) ∘
          fun pr => ((ordinalOf cards pr.1).1, pr.2)) pr = id pr := by
      intro pr hpr
      simp only [Function.comp_apply, id_eq]
      rw [(pack_ord cards hsort hM pr.1 (hmem pr hpr)).2.2]
    rw [List.map_congr_left this, List.map_id]
  have hpermMap : ((sortPairs P0).map (fun pr => (cards.getD pr.1 0, pr.2))).Perm deck :=
    (hperm.map _).trans (by rw [hmapgd])
  refine ⟨hloop, hbnd, hpermMap, ?_, ?_⟩
  · have : (((sortPairs P0).map (fun pr => (cards.getD pr.1 0, pr.2))).map Prod.fst).Perm
        (deck.map Prod.fst) := hpermMap.map _
    exact this.nodup_iff.mpr hnd
  · rw [hperm.length_eq, hP0, List.length_map]

/-- C1: for every pack with a non-empty, strictly ascending card list
(of `uint32`-addressable size) and non-zero 16-bit format identifier,
and every deck input whose leader, tactics and main-deck identifiers are
members of the pack, whose main-deck counts lie in `[1,4]` with unique
keys, and whose three sections have at most 255 entries each,
`Decode(P, Encode(P, X))` succeeds and returns leader and tactics equal
to `X`'s as sets in ascending order, and a main-deck mapping identical
to `X`'s. -/
theorem C1_roundtrip (p : Pack) (X : DeckInput)
    (hsort : p.cards.Sorted (· < ·)) (hne : p.cards ≠ [])
    (hfidnz : p.formatID ≠ 0) (hfid16 : p.formatID < 2 ^ 16)
    (hM : p.cards.length ≤ 2 ^ 32)
    (hLmem : ∀ pk ∈ X.leader, pk ∈ p.cards)
    (hTmem : ∀ pk ∈ X.tactics, pk ∈ p.cards)
    (hDmem : ∀ pr ∈ X.deck, pr.1 ∈ p.cards)
    (hDcnt : ∀ pr ∈ X.deck, 1 ≤ pr.2 ∧ pr.2 ≤ 4)
    (hDnodup : (X.deck.map Prod.fst).Nodup)
    (hL255 : X.leader.length ≤ 255) (hT255 : X.tactics.length ≤ 255)
    (hD255 : X.deck.length ≤ 255) :
    ∃ s out, Encode p X = .ok s ∧ Decode p s = .ok out ∧
      out.leader.Perm X.leader ∧ out.leader.Sorted (· ≤ ·) ∧
      out.tactics.Perm X.tactics ∧ out.tactics.Sorted (· ≤ ·) ∧
      out.deck.Perm X.deck := by
  obtain ⟨hLok, hLb, hLperm, hLsorted, hLlen⟩ :=
    toOrd_valid p.cards hsort hM X.leader hLmem
  obtain ⟨hTok, hTb, hTperm, hTsorted, hTlen⟩ :=
    toOrd_valid p.cards hsort hM X.tactics hTmem
  obtain ⟨hPok, hPb, hPperm, hPnd, hPlen⟩ :=
    toPairs_valid p.cards hsort hM X.deck hDmem hDcnt hDnodup
  set L := sortNat (X.leader.map (fun pk => (ordinalOf p.cards pk).1)) with hLdef
  set T := sortNat (X.tactics.map (fun pk => (ordinalOf p.cards pk).1)) with hTdef
  set P := sortPairs (X.deck.map (fun pr => ((ordinalOf p.cards pr.1).1, pr.2))) with hPdef
  have henc := encode_eq p X L T
    (X.deck.map (fun pr => ((ordinalOf p.cards pr.1).1, pr.2)))
    hfidnz hne hLok hTok hPok (by omega) (by omega) (by rw [← hPdef]; omega)
  have hdec := decode_encoded p L T P hfid16 (by omega) (by omega)
    (by rw [hPdef] at hPlen ⊢; omega) hLb hTb hPb hM hne
  refine ⟨_, ⟨p.formatID, L.map (fun o => p.cards.getD o 0),
      T.map (fun o => p.cards.getD o 0),
      buildDeckMap (P.map (fun pr => (p.cards.getD pr.1 0, pr.2)))⟩,
    henc, ?_, hLperm, hLsorted, hTperm, hTsorted, ?_⟩
  · rw [← hPdef]
    exact hdec
  · simp only
    rw [buildDeckMap_eq _ hPnd]
    exact hPperm

/-- Witness for C1 on a concrete pack and deck. -/
theorem C1_roundtrip_witness :
    (([10, 20, 30] : List Nat).Sorted (· < ·) ∧ ([10, 20, 30] : List Nat) ≠ [] ∧
      (7 : Nat) ≠ 0 ∧ (7 : Nat) < 2 ^ 16 ∧ ([10, 20, 30] : List Nat).length ≤ 2 ^ 32) ∧
    (∃ s out, Encode ⟨7, [10, 20, 30]⟩ ⟨[20, 10], [30], [(20, 3)]⟩ = .ok s ∧
      Decode ⟨7, [10, 20, 30]⟩ s = .ok out ∧
      out.leader.Perm [20, 10] ∧ out.leader.Sorted (· ≤ ·) ∧
      out.tactics.Perm [30] ∧ out.tactics.Sorted (· ≤ ·) ∧
      out.deck.Perm [(20, 3)]) :=
  ⟨⟨by decide, by decide, by decide, by norm_num, by norm_num⟩,
   C1_roundtrip ⟨7, [10, 20, 30]⟩ ⟨[20, 10], [30], [(20, 3)]⟩
     (by decide) (by decide) (by decide) (by norm_num) (by norm_num)
     (by decide) (by decide) (by decide) (by decide) (by decide)
     (by decide) (by decide) (by decide)⟩

/-- C2: `Encode` is order-independent — permuting the leader list, the
tactics list, and the iteration order of the (unique-keyed) main-deck
map leaves a successful encoding byte-for-byte identical. -/
theorem C2_encode_deterministic (p : Pack) (X X' : DeckInput) (s : List Char)
    (hM : p.cards.length ≤ 2 ^ 32)
    (hLp : X'.leader.Perm X.leader) (hTp : X'.tactics.Perm X.tactics)
    (hDp : X'.deck.Perm X.deck) (hnd : (X.deck.map Prod.fst).Nodup)
    (henc : Encode p X = .ok s) : Encode p X' = .ok s := by
  obtain ⟨hfid, hcards, L, T, P0, hL, hT, hP, h255L, h255T, h255P, hs⟩ :=
    encode_inv p X s henc
  -- leader section is permutation-invariant
  obtain ⟨osL, hosL, hLeq⟩ := toOrd_inv _ _ _ hL
  obtain ⟨hfoundL, hosLeq⟩ := toOrdLoop_inv _ _ _ hosL
  have hL' : toOrd p.cards X'.leader = .ok L := by
    rw [toOrd, toOrdLoop_ok _ _ (fun pk hpk => hfoundL pk (hLp.subset hpk))]
    have heqL : sortNat (X'.leader.map (fun pk => (ordinalOf p.cards pk).1)) = L := by
      rw [hLeq, hosLeq]
      exact sortNat_eq_of_perm _ _ (hLp.map _)
    rw [← heqL]
    rfl
  -- tactics section is permutation-invariant
  obtain ⟨osT, hosT, hTeq⟩ := toOrd_inv _ _ _ hT
  obtain ⟨hfoundT, hosTeq⟩ := toOrdLoop_inv _ _ _ hosT
  have hT' : toOrd p.cards X'.tactics = .ok T := by
    rw [toOrd, toOrdLoop_ok _ _ (fun pk hpk => hfoundT pk (hTp.subset hpk))]
    have heqT : sortNat (X'.tactics.map (fun pk => (ordinalOf p.cards pk).1)) = T := by
      rw [hTeq, hosTeq]
      exact sortNat_eq_of_perm _ _ (hTp.map _)
    rw [← heqT]
    rfl
  -- main-deck section is permutation-invariant given unique keys
  obtain ⟨hvalidP, hPeq⟩ := toPairsLoop_inv _ _ _ hP
  have hP' : toPairsLoop p.cards X'.deck
      = .ok (X'.deck.map (fun pr => ((ordinalOf p.cards pr.1).1, pr.2))) :=
    toPairsLoop_ok _ _ (fun pr hpr => hvalidP pr (hDp.subset hpr))
  have hndkeys : ((X'.deck.map (fun pr => ((ordinalOf p.cards pr.1).1, pr.2))).map
      Prod.fst).Nodup := by
    have hrw : ((X'.deck.map (fun pr => ((ordinalOf p.cards pr.1).1, pr.2))).map
        Prod.fst) = X'.deck.map (fun pr => (ordinalOf p.cards pr.1).1) := by
      rw [List.map_map]
      rfl
    rw [hrw]
    have hnd' : (X'.deck.map Prod.fst).Nodup := ((hDp.map Prod.fst).nodup_iff).mpr hnd
    have hp1 : X'.deck.Pairwise (fun a b => a.1 ≠ b.1) := List.pairwise_map.mp hnd'
    have hfound' : ∀ pr ∈ X'.deck, (ordinalOf p.cards pr.1).2 = true :=
      fun pr hpr => (hvalidP pr (hDp.subset hpr)).2
    refine List.pairwise_map.mpr (hp1.imp_of_mem ?_)
    intro a b ha hb hne heq
    exact hne (ordinalOf_inj p.cards a.1 b.1 hM (hfound' a ha) (hfound' b hb) heq)
  have hsseq : sortPairs (X'.deck.map (fun pr => ((ordinalOf p.cards pr.1).1, pr.2)))
      = sortPairs P0 := by
    rw [hPeq]
    exact sortPairs_eq_of_perm _ _ (hDp.map _) hndkeys
  have henc' := encode_eq p X' L T
    (X'.deck.map (fun pr => ((ordinalOf p.cards pr.1).1, pr.2)))
    hfid hcards hL' hT' hP' h255L h255T (by rw [hsseq]; exact h255P)
  rw [henc', hs, hsseq]

/-- C3: decoding with a pack whose format identifier differs from the
encoding pack's fails with the format-mismatch error, regardless of the
card sets. -/
theorem C3_format_binding (p1 p2 : Pack) (X : DeckInput) (s : List Char)
    (h1 : p1.formatID < 2 ^ 16) (h2 : p2.formatID < 2 ^ 16)
    (hne : p1.formatID ≠ p2.formatID) (henc : Encode p1 X = .ok s) :
    Decode p2 s = .error .formatIDMismatch := by
  obtain ⟨hfid, hcards, L, T, P0, hL, hT, hP, _, _, _, hs⟩ := encode_inv p1 X s henc
  subst hs
  obtain ⟨hb256, hlen, hbits, hag⟩ :=
    stream_spec (encPairs p1.formatID (idBits (p1.cards.length : Int)) L T (sortPairs P0))
  set bytes := (writeAll (encPairs p1.formatID (idBits (p1.cards.length : Int)) L T
    (sortPairs P0)) Writer.empty).finish with hbytes
  rw [totalBits_encPairs] at hbits
  rw [encPairs] at hag
  obtain ⟨hagF, _⟩ := hag
  dsimp only at hagF
  obtain ⟨r₁, hrd₁, _, _, _⟩ :=
    readBits_spec ⟨bytes, 0, 0, 0, 8 * bytes.length⟩ 16 (bytesVal bytes) 0
      (RinvCore_init bytes _ hb256) (by simp; omega) (by simp)
  have hv₁ : bytesVal bytes / 2 ^ 0 % 2 ^ 16 % 2 ^ 32 = p1.formatID := by
    rw [hagF, Nat.mod_eq_of_lt h1, Nat.mod_eq_of_lt (by omega)]
  rw [hv₁] at hrd₁
  rw [Decode, b64_roundtrip bytes hb256]
  simp only [bind, Except.bind, pure, Except.pure]
  rw [NewReader_full bytes]
  rw [rb_ok _ 16 _ _ hrd₁]
  simp only [Nat.mod_eq_of_lt h1, bind, Except.bind, throw, throwThe, MonadExceptOf.throw]
  rw [if_pos hne]

/-- Witness for C3 on two concrete packs with equal card sets. -/
theorem C3_format_binding_witness :
    ((7 : Nat) < 2 ^ 16 ∧ (9 : Nat) < 2 ^ 16 ∧ (7 : Nat) ≠ 9) ∧
    ∃ s, Encode ⟨7, [10, 20, 30]⟩ ⟨[10], [], []⟩ = .ok s ∧
      Decode ⟨9, [10, 20, 30]⟩ s = .error .formatIDMismatch := by
  obtain ⟨hLok, hLb, _, _, hLlen⟩ :=
    toOrd_valid [10, 20, 30] (by decide) (by norm_num) [10] (by decide)
  obtain ⟨hTok, hTb, _, _, hTlen⟩ :=
    toOrd_valid [10, 20, 30] (by decide) (by norm_num) [] (by decide)
  obtain ⟨hPok, hPb, _, _, hPlen⟩ :=
    toPairs_valid [10, 20, 30] (by decide) (by norm_num) [] (by decide) (by decide)
      (by decide)
  have henc := encode_eq ⟨7, [10, 20, 30]⟩ ⟨[10], [], []⟩ _ _ _
    (by decide) (by decide) hLok hTok hPok (by rw [hLlen]; simp) (by rw [hTlen]; simp)
    (by rw [(sortPairs_perm _).length_eq]; simp)
  refine ⟨⟨by norm_num, by norm_num, by norm_num⟩, _, henc, ?_⟩
  exact C3_format_binding ⟨7, [10, 20, 30]⟩ ⟨9, [10, 20, 30]⟩ ⟨[10], [], []⟩ _
    (by norm_num) (by norm_num) (by norm_num) henc

/-- C7 counterexample: on a pack whose card list is not sorted, `Encode`
does not behave as on the sorted pack — the binary search misses the
member `1` in `[2, 1]`, so encoding fails, while it succeeds on `[1, 2]`. -/
theorem C7_counterexample :
    Encode ⟨1, [2, 1]⟩ ⟨[1], [], []⟩ ≠ Encode ⟨1, [1, 2]⟩ ⟨[1], [], []⟩ := by
  have hl : Encode ⟨1, [2, 1]⟩ ⟨[1], [], []⟩ = .error .pkNotInPack := by
    simp [Encode, toOrd, toOrdLoop, ordinalOf, sortSearch, searchLoop,
      bind, Except.bind, throw, throwThe, MonadExceptOf.throw, pure, Except.pure]
  obtain ⟨hLok, _, _, _, hLlen⟩ :=
    toOrd_valid [1, 2] (by decide) (by norm_num) [1] (by decide)
  obtain ⟨hTok, _, _, _, hTlen⟩ :=
    toOrd_valid [1, 2] (by decide) (by norm_num) [] (by decide)
  obtain ⟨hPok, _, _, _, _⟩ :=
    toPairs_valid [1, 2] (by decide) (by norm_num) [] (by decide) (by decide) (by decide)
  have hr := encode_eq ⟨1, [1, 2]⟩ ⟨[1], [], []⟩ _ _ _
    (by decide) (by decide) hLok hTok hPok (by rw [hLlen]; simp) (by rw [hTlen]; simp)
    (by rw [(sortPairs_perm _).length_eq]; simp)
  rw [hl, hr]
  simp

/-- C7 amended: the defensive sort lives at the loading entry point —
`LoadPack` sorts the parsed card list ascending (a permutation of the
stored one) before the pack is handed to the codec. -/
theorem C7_loadpack_sorts (p : Pack) :
    (loadPackSortCards p).formatID = p.formatID ∧
    ((loadPackSortCards p).cards).Sorted (· ≤ ·) ∧
    ((loadPackSortCards p).cards).Perm p.cards :=
  ⟨rfl, sortNat_sorted _, sortNat_perm _⟩

/-- C8 counterexample: `Decode` accepts a hand-crafted code whose leader
ordinals arrive out of order and returns a non-ascending leader list; it
never re-sorts what it reads. -/
theorem C8_counterexample :
    Decode ⟨1, [10, 20]⟩ (b64EncodeBytes
        ((writeAll [(1, 16), (2, 8), (1, 1), (0, 1), (0, 8), (0, 8)]
          Writer.empty).finish))
      = .ok ⟨1, [20, 10], [], []⟩ ∧
    ¬ ([20, 10] : List Nat).Sorted (· ≤ ·) := by
  constructor
  · have hib : idBits (([10, 20] : List Nat).length : Int) = 1 := by
      have h1 := ((idBits_spec 2).2 (by norm_num)).2 1 (by norm_num)
      have h2 := ((idBits_spec 2).2 (by norm_num)).1
      have h3 : idBits (2 : Int) ≠ 0 := by
        intro h0
        rw [h0] at h2
        norm_num at h2
      simp only [List.length_cons, List.length_nil]
      norm_num
      omega
    have hd := decode_encoded ⟨1, [10, 20]⟩ [1, 0] [] []
      (by norm_num) (by simp) (by simp) (by simp)
      (by decide) (by decide) (by decide) (by norm_num) (by decide)
    rw [hib] at hd
    have hpairs : encPairs 1 1 [1, 0] [] []
        = [(1, 16), (2, 8), (1, 1), (0, 1), (0, 8), (0, 8)] := rfl
    rw [hpairs] at hd
    rw [hd]
    rfl
  · decide

/-- Witness for C2: two section-wise set-equal concrete decks encode to
the same string. -/
theorem C2_encode_deterministic_witness :
    (([10, 20, 30] : List Nat).length ≤ 2 ^ 32 ∧
      ([10, 20] : List Nat).Perm [20, 10] ∧ ([30] : List Nat).Perm [30] ∧
      ([(30, 2), (10, 1)] : List (Nat × Nat)).Perm [(10, 1), (30, 2)] ∧
      (([(10, 1), (30, 2)] : List (Nat × Nat)).map Prod.fst).Nodup) ∧
    ∃ s, Encode ⟨7, [10, 20, 30]⟩ ⟨[20, 10], [30], [(10, 1), (30, 2)]⟩ = .ok s ∧
      Encode ⟨7, [10, 20, 30]⟩ ⟨[10, 20], [30], [(30, 2), (10, 1)]⟩ = .ok s := by
  obtain ⟨hLok, _, _, _, hLlen⟩ :=
    toOrd_valid [10, 20, 30] (by decide) (by norm_num) [20, 10] (by decide)
  obtain ⟨hTok, _, _, _, hTlen⟩ :=
    toOrd_valid [10, 20, 30] (by decide) (by norm_num) [30] (by decide)
  obtain ⟨hPok, _, _, _, hPlen⟩ :=
    toPairs_valid [10, 20, 30] (by decide) (by norm_num) [(10, 1), (30, 2)]
      (by decide) (by decide) (by decide)
  have henc := encode_eq ⟨7, [10, 20, 30]⟩ ⟨[20, 10], [30], [(10, 1), (30, 2)]⟩ _ _ _
    (by decide) (by decide) hLok hTok hPok (by rw [hLlen]; simp) (by rw [hTlen]; simp)
    (by rw [(sortPairs_perm _).length_eq]; simp)
  refine ⟨⟨by norm_num, by decide, by decide, by decide, by decide⟩, _, henc, ?_⟩
  exact C2_encode_deterministic ⟨7, [10, 20, 30]⟩
    ⟨[20, 10], [30], [(10, 1), (30, 2)]⟩ ⟨[10, 20], [30], [(30, 2), (10, 1)]⟩ _
    (by norm_num) (by decide) (by decide) (by decide) (by decide) henc

/-- C8 amended: for every code actually produced by `Encode` on a valid
deck, `Decode` returns ascending leader and tactics sequences (the
sorting happens at encode time; `Decode` itself does not sort). -/
theorem C8_encode_decode_sorted (p : Pack) (X : DeckInput)
    (hsort : p.cards.Sorted (· < ·)) (hne : p.cards ≠ [])
    (hfidnz : p.formatID ≠ 0) (hfid16 : p.formatID < 2 ^ 16)
    (hM : p.cards.length ≤ 2 ^ 32)
    (hLmem : ∀ pk ∈ X.leader, pk ∈ p.cards)
    (hTmem : ∀ pk ∈ X.tactics, pk ∈ p.cards)
    (hDmem : ∀ pr ∈ X.deck, pr.1 ∈ p.cards)
    (hDcnt : ∀ pr ∈ X.deck, 1 ≤ pr.2 ∧ pr.2 ≤ 4)
    (hDnodup : (X.deck.map Prod.fst).Nodup)
    (hL255 : X.leader.length ≤ 255) (hT255 : X.tactics.length ≤ 255)
    (hD255 : X.deck.length ≤ 255) :
    ∃ s out, Encode p X = .ok s ∧ Decode p s = .ok out ∧
      out.leader.Sorted (· ≤ ·) ∧ out.tactics.Sorted (· ≤ ·) := by
  obtain ⟨hLok, hLb, _, hLsorted, hLlen⟩ :=
    toOrd_valid p.cards hsort hM X.leader hLmem
  obtain ⟨hTok, hTb, _, hTsorted, hTlen⟩ :=
    toOrd_valid p.cards hsort hM X.tactics hTmem
  obtain ⟨hPok, hPb, _, _, hPlen⟩ :=
    toPairs_valid p.cards hsort hM X.deck hDmem hDcnt hDnodup
  set L := sortNat (X.leader.map (fun pk => (ordinalOf p.cards pk).1)) with hLdef
  set T := sortNat (X.tactics.map (fun pk => (ordinalOf p.cards pk).1)) with hTdef
  set P := sortPairs (X.deck.map (fun pr => ((ordinalOf p.cards pr.1).1, pr.2))) with hPdef
  have henc := encode_eq p X L T
    (X.deck.map (fun pr => ((ordinalOf p.cards pr.1).1, pr.2)))
    hfidnz hne hLok hTok hPok (by omega) (by omega) (by rw [← hPdef]; omega)
  have hdec := decode_encoded p L T P hfid16 (by omega) (by omega)
    (by rw [hPdef] at hPlen ⊢; omega) hLb hTb hPb hM hne
  refine ⟨_, ⟨p.formatID, L.map (fun o => p.cards.getD o 0),
      T.map (fun o => p.cards.getD o 0),
      buildDeckMap (P.map (fun pr => (p.cards.getD pr.1 0, pr.2)))⟩,
    henc, ?_, hLsorted, hTsorted⟩
  rw [← hPdef]
  exact hdec

/-- Witness for the amended C8 on a concrete pack and deck. -/
theorem C8_encode_decode_sorted_witness :
    (([10, 20, 30] : List Nat).Sorted (· < ·) ∧ ([10, 20, 30] : List Nat) ≠ [] ∧
      (7 : Nat) ≠ 0 ∧ (7 : Nat) < 2 ^ 16 ∧ ([10, 20, 30] : List Nat).length ≤ 2 ^ 32) ∧
    (∃ s out, Encode ⟨7, [10, 20, 30]⟩ ⟨[30, 10], [20], []⟩ = .ok s ∧
      Decode ⟨7, [10, 20, 30]⟩ s = .ok out ∧
      out.leader.Sorted (· ≤ ·) ∧ out.tactics.Sorted (· ≤ ·)) :=
  ⟨⟨by decide, by decide, by decide, by norm_num, by norm_num⟩,
   C8_encode_decode_sorted ⟨7, [10, 20, 30]⟩ ⟨[30, 10], [20], []⟩
     (by decide) (by decide) (by decide) (by norm_num) (by norm_num)
     (by decide) (by decide) (by decide) (by decide) (by decide)
     (by decide) (by decide) (by decide)⟩

end deckcodec
